import Mathlib

/-!
# Depth packet stream parser

A shallow embedding of `DepthPacketStreamParser` from
`examples/protonect/src/depth_packet_stream_parser.cpp`: the constructor and
`onDataReceived`, with the heap that holds the two frame buffers made explicit.

Pointers are addresses (offsets into the one allocation made by the double
buffer), the heap is a map from addresses to bytes, and the packet processor is
an external collaborator: the answer its `ready()` would give is an input of
each call and the packets handed to its `process` are an output.
-/

namespace Freenect2

/-- One `unsigned char`. -/
abbrev Byte := Fin 256

/-- Modulus of the `uint32_t` counters. -/
def u32 : Nat := 4294967296

/-- The fields of `DepthSubPacketFooter` that `onDataReceived` reads. -/
structure DepthSubPacketFooter where
  magic0 : Nat
  magic1 : Nat
  sequence : Nat
  subsequence : Nat
deriving DecidableEq, Repr

/-- Modelled from the spec: the declaration of `DepthSubPacketFooter` is in a
header that is not part of the tree. The spec calls it a fixed-size trailer
record carrying magic values, a sequence id and a sub-sequence id; its size in
bytes (`sizeof(DepthSubPacketFooter)`) and the way the fields are read off
those bytes (the `reinterpret_cast`) are kept as a parameter. The two counters
are unsigned 32-bit. -/
structure FooterLayout where
  size : Nat
  read : List Byte → DepthSubPacketFooter
  size_pos : 0 < size
  sequence_lt : ∀ bs, (read bs).sequence < u32
  subsequence_lt : ∀ bs, (read bs).subsequence < u32

/-- A `Buffer`: capacity, fill and the address of its first byte. -/
structure Buffer where
  capacity : Nat
  length : Nat
  data : Nat
deriving DecidableEq, Repr

/-- Modelled from the spec: `DoubleBuffer` is declared and implemented outside
the tree. The spec describes two equally sized regions plus a role flag saying
which one is front, and a swap that exchanges the roles in O(1). -/
structure DoubleBuffer where
  buffer0 : Buffer
  buffer1 : Buffer
  front_is_1 : Bool
deriving DecidableEq, Repr

/-- Modelled from the spec: `allocate(size)` makes one allocation of `2 * size`
bytes and splits it in two regions of `size` bytes; region 0 starts as front. -/
def DoubleBuffer.allocate (size : Nat) : DoubleBuffer :=
  { buffer0 := { capacity := size, length := 0, data := 0 }
    buffer1 := { capacity := size, length := 0, data := size }
    front_is_1 := false }

/-- Modelled from the spec: the region that is the write target. -/
def DoubleBuffer.front (b : DoubleBuffer) : Buffer :=
  if b.front_is_1 then b.buffer1 else b.buffer0

/-- Modelled from the spec: the region that is visible to the consumer. -/
def DoubleBuffer.back (b : DoubleBuffer) : Buffer :=
  if b.front_is_1 then b.buffer0 else b.buffer1

/-- Modelled from the spec: the O(1) exchange of the two roles. -/
def DoubleBuffer.swap (b : DoubleBuffer) : DoubleBuffer :=
  { b with front_is_1 := !b.front_is_1 }

/-- Assignment through the reference `front()`. -/
def DoubleBuffer.setFrontLength (b : DoubleBuffer) (n : Nat) : DoubleBuffer :=
  if b.front_is_1 then { b with buffer1 := { b.buffer1 with length := n } }
  else { b with buffer0 := { b.buffer0 with length := n } }

/-- Assignment through the reference `back()`. -/
def DoubleBuffer.setBackLength (b : DoubleBuffer) (n : Nat) : DoubleBuffer :=
  if b.front_is_1 then { b with buffer0 := { b.buffer0 with length := n } }
  else { b with buffer1 := { b.buffer1 with length := n } }

/-- The descriptor handed to `process`. -/
structure DepthPacket where
  sequence : Nat
  buffer : Nat
  buffer_length : Nat
deriving DecidableEq, Repr

/-- The members of `DepthPacketStreamParser` that `onDataReceived` uses,
together with the heap. The two counters are unsigned 32-bit values, kept as
naturals below `u32`; addresses and lengths are `size_t` values of buffers
held in memory, whose sums do not wrap. -/
structure DepthPacketStreamParser where
  buffer_ : DoubleBuffer
  work_buffer_ : Buffer
  started_ : Bool
  current_sequence_ : Nat
  current_subsequence_ : Nat
  heap : Nat → Byte

/-- The constant `single_image` of the constructor. -/
def single_image : Nat := 512 * 424 * 11 / 8

/-- The constructor. The allocation is not initialised: its contents are the
argument `heap`. `current_sequence_(-1)` is the largest 32-bit value. -/
def DepthPacketStreamParser.construct (heap : Nat → Byte) : DepthPacketStreamParser :=
  let b0 := DoubleBuffer.allocate (single_image * 10)
  let b1 := b0.setFrontLength b0.front.capacity
  let b2 := b1.setBackLength b1.back.capacity
  { buffer_ := b2
    work_buffer_ := { data := b2.front.data, capacity := single_image, length := 0 }
    started_ := false
    current_sequence_ := u32 - 1
    current_subsequence_ := 0
    heap := heap }

/-- The call `memcpy(dst, src, n)` on the heap. -/
def memcpy (heap : Nat → Byte) (dst : Nat) (src : List Byte) (n : Nat) : Nat → Byte :=
  fun a => if dst ≤ a then ((src.take n)[a - dst]?).getD (heap a) else heap a

/-- The footer record aliased over the last `sizeof(DepthSubPacketFooter)`
bytes of a fragment. -/
def footerOf (L : FooterLayout) (buffer : List Byte) : DepthSubPacketFooter :=
  L.read (buffer.drop (buffer.length - L.size))

/-- The test `footer->magic0 == 0x0 && footer->magic1 == 0x9`. -/
def isTerminator (f : DepthSubPacketFooter) : Bool :=
  f.magic0 == 0 && f.magic1 == 9

/-- The way a call of `onDataReceived` left the function: the early return on
an empty fragment, the return after a fragment without terminator, the code
after the label `drop_packet`, or the acceptance of a sub-packet (line
`started_ = true` reached). -/
inductive Path where
  | ignored
  | continued
  | dropped
  | accepted
deriving DecidableEq, Repr

/-- What one call of `onDataReceived` does: the parser afterwards, the packets
handed to `process` during the call, and the path taken. -/
structure Step where
  parser : DepthPacketStreamParser
  processed : List DepthPacket
  path : Path

/-- The code after the label `drop_packet`; `fb` is the reference taken at the
start of the call. -/
def drop_packet (p : DepthPacketStreamParser) (fb : Buffer) (footer : DepthSubPacketFooter) :
    Step :=
  { parser :=
      { p with
        current_subsequence_ := 0
        current_sequence_ := (footer.sequence + 1) % u32
        work_buffer_ :=
          { p.work_buffer_ with length := 0, data := fb.data + p.work_buffer_.capacity * 0 } }
    processed := []
    path := Path.dropped }

/-- The method `onDataReceived`. `ready` is what `processor_->ready()` answers
if it is asked during this call. A non-empty fragment shorter than the footer
makes the footer pointer point before the fragment: the call has no defined
result (`none`). -/
def onDataReceived (L : FooterLayout) (p : DepthPacketStreamParser) (ready : Bool)
    (buffer : List Byte) : Option Step :=
  if buffer.length = 0 then
    some { parser := p, processed := [], path := Path.ignored }
  else if buffer.length < L.size then
    none
  else
    let fb := p.buffer_.front
    let wb := p.work_buffer_
    let footer := footerOf L buffer
    let new_subpacket := isTerminator footer
    let length := if new_subpacket then buffer.length - L.size else buffer.length
    if wb.length + length > wb.capacity then
      some (drop_packet p fb footer)
    else
      let p1 : DepthPacketStreamParser :=
        { p with
          heap := memcpy p.heap (wb.data + wb.length) buffer length
          work_buffer_ := { wb with length := wb.length + length } }
      if !new_subpacket then
        some { parser := p1, processed := [], path := Path.continued }
      else if p1.work_buffer_.length ≠ p1.work_buffer_.capacity then
        some (drop_packet p1 fb footer)
      else if !p1.started_ && footer.subsequence != 0 then
        some (drop_packet p1 fb footer)
      else
        let p2 : DepthPacketStreamParser :=
          if !p1.started_ then { p1 with current_sequence_ := footer.sequence } else p1
        if footer.sequence ≠ p2.current_sequence_
            ∨ footer.subsequence ≠ p2.current_subsequence_ then
          some (drop_packet p2 fb footer)
        else
          let sub := (p2.current_subsequence_ + 1) % u32 % 10
          let p3 : DepthPacketStreamParser :=
            { p2 with
              started_ := true
              current_subsequence_ := sub
              work_buffer_ :=
                { p2.work_buffer_ with
                  length := 0, data := fb.data + p2.work_buffer_.capacity * sub } }
          if sub ≠ 0 then
            some { parser := p3, processed := [], path := Path.accepted }
          else
            let p4 : DepthPacketStreamParser :=
              { p3 with current_sequence_ := (p3.current_sequence_ + 1) % u32 }
            if !ready then
              some { parser := p4, processed := [], path := Path.accepted }
            else
              let p5 : DepthPacketStreamParser := { p4 with buffer_ := p4.buffer_.swap }
              let packet : DepthPacket :=
                { sequence := (p5.current_sequence_ + u32 - 1) % u32
                  buffer := p5.buffer_.back.data
                  buffer_length := p5.buffer_.back.capacity }
              some { parser := p5, processed := [packet], path := Path.accepted }

/-- The transport calling `onDataReceived` once per fragment, in order; each
event is a fragment together with the answer of `ready()` during that call.
The result is the parser afterwards and every packet handed to `process`. -/
def feed (L : FooterLayout) :
    DepthPacketStreamParser → List (Bool × List Byte) →
      Option (DepthPacketStreamParser × List DepthPacket)
  | p, [] => some (p, [])
  | p, e :: es =>
    match onDataReceived L p e.1 e.2 with
    | none => none
    | some s =>
      match feed L s.parser es with
      | none => none
      | some r => some (r.1, s.processed ++ r.2)

/-- A fragment that does not end a sub-packet: empty, or long enough to hold a
footer and failing the magic test. -/
def IsContinuation (L : FooterLayout) (f : List Byte) : Prop :=
  f = [] ∨ (L.size ≤ f.length ∧ isTerminator (footerOf L f) = false)

/-- A fragment that ends a sub-packet: it holds a footer passing the magic
test. -/
def IsTerminating (L : FooterLayout) (f : List Byte) : Prop :=
  L.size ≤ f.length ∧ isTerminator (footerOf L f) = true

/-- One sub-packet as the transport delivers it: fragments without terminator
followed by the fragment that carries the footer. -/
structure SubPacket where
  body : List (List Byte)
  last : List Byte

/-- The calls made for one sub-packet, all with the same answer of `ready()`. -/
def SubPacket.events (ready : Bool) (sp : SubPacket) : List (Bool × List Byte) :=
  sp.body.map (fun f => (ready, f)) ++ [(ready, sp.last)]

/-- Number of payload bytes a sub-packet carries. -/
def SubPacket.payloadLength (L : FooterLayout) (sp : SubPacket) : Nat :=
  (sp.body.map List.length).sum + (sp.last.length - L.size)

/-- A well-formed sub-packet of full size with footer `(seq, sub)`. -/
def SubPacket.FullSize (L : FooterLayout) (seq sub : Nat) (sp : SubPacket) : Prop :=
  (∀ f ∈ sp.body, IsContinuation L f) ∧ IsTerminating L sp.last
    ∧ sp.payloadLength L = single_image
    ∧ (footerOf L sp.last).sequence = seq ∧ (footerOf L sp.last).subsequence = sub

/-- The calls made for the `k` sub-packets `sp j, sp (j+1), ...`, in order. -/
def subPacketsFrom (ready : Bool) (sp : Nat → SubPacket) (j : Nat) :
    Nat → List (Bool × List Byte)
  | 0 => []
  | k + 1 => (sp j).events ready ++ subPacketsFrom ready sp (j + 1) k

/-- The calls made for one frame: sub-packets `sp 0, ..., sp 9`. -/
def frameEvents (ready : Bool) (sp : Nat → SubPacket) : List (Bool × List Byte) :=
  subPacketsFrom ready sp 0 10


/-- The parser after a terminating fragment `f` has been accepted as
sub-packet `sub - 1`, before the end-of-frame handling. -/
def accepted (L : FooterLayout) (p : DepthPacketStreamParser) (f : List Byte) (sub : Nat) :
    DepthPacketStreamParser :=
  { p with
    heap := memcpy p.heap (p.work_buffer_.data + p.work_buffer_.length) f (f.length - L.size)
    started_ := true
    current_sequence_ := (footerOf L f).sequence
    current_subsequence_ := sub
    work_buffer_ :=
      { p.work_buffer_ with
        length := 0, data := p.buffer_.front.data + p.work_buffer_.capacity * sub } }

/-- The parser just before the terminating fragment of a sub-packet whose
earlier fragments (of `n` bytes in total) have been appended, leaving the heap
`h`. -/
def beforeLast (p : DepthPacketStreamParser) (h : Nat → Byte) (n : Nat) :
    DepthPacketStreamParser :=
  { p with heap := h, work_buffer_ := { p.work_buffer_ with length := p.work_buffer_.length + n } }

/-- Number of bytes of a fragment that `onDataReceived` appends: the fragment
without its footer when the footer passes the magic test, the whole fragment
otherwise. -/
def payloadLength (L : FooterLayout) (f : List Byte) : Nat :=
  if isTerminator (footerOf L f) then f.length - L.size else f.length

/-- A state reachable from construction by calls of `onDataReceived`. -/
def Reachable (L : FooterLayout) (p : DepthPacketStreamParser) : Prop :=
  ∃ (heap : Nat → Byte) (evs : List (Bool × List Byte)) (log : List DepthPacket),
    feed L (DepthPacketStreamParser.construct heap) evs = some (p, log)

/-- What the calls of `onDataReceived` keep true from construction on: the two
regions as allocated, the accumulator's capacity and fill bound, the ranges of
the counters, and the accumulator bound to its slot of the front buffer or,
with sub-packet 0 expected, to slot 0 of the back buffer. -/
def Inv (p : DepthPacketStreamParser) : Prop :=
  p.buffer_.buffer0 = { capacity := 2984960, length := 2984960, data := 0 }
  ∧ p.buffer_.buffer1 = { capacity := 2984960, length := 2984960, data := 2984960 }
  ∧ p.work_buffer_.capacity = 298496
  ∧ p.work_buffer_.length ≤ 298496
  ∧ p.current_subsequence_ < 10
  ∧ p.current_sequence_ < u32
  ∧ (p.started_ = false → p.current_subsequence_ = 0)
  ∧ (p.work_buffer_.data = p.buffer_.front.data + 298496 * p.current_subsequence_
      ∨ (p.current_subsequence_ = 0 ∧ p.work_buffer_.data = p.buffer_.back.data))

/-- The parser after the payload of fragment `f` has been copied behind the
fill mark of the accumulator. -/
def appended (L : FooterLayout) (p : DepthPacketStreamParser) (f : List Byte) :
    DepthPacketStreamParser :=
  { p with
    heap := memcpy p.heap (p.work_buffer_.data + p.work_buffer_.length) f (payloadLength L f)
    work_buffer_ :=
      { p.work_buffer_ with length := p.work_buffer_.length + payloadLength L f } }

/-- The checks a terminating fragment passes to be accepted: the sub-packet is
complete, a parser that has not started sees sub-sequence 0, a started parser
sees the expected sequence, and the sub-sequence is the expected one. -/
def AcceptCond (L : FooterLayout) (p : DepthPacketStreamParser) (f : List Byte) : Prop :=
  p.work_buffer_.length + payloadLength L f = p.work_buffer_.capacity
  ∧ (p.started_ = false → (footerOf L f).subsequence = 0)
  ∧ (p.started_ = true → (footerOf L f).sequence = p.current_sequence_)
  ∧ (footerOf L f).subsequence = p.current_subsequence_

/-- The sub-sequence expected after an acceptance. -/
def nextSub (p : DepthPacketStreamParser) : Nat :=
  (p.current_subsequence_ + 1) % u32 % 10

/-- A started parser with an empty accumulator of the size of one sub-packet
that expects sub-packet `(X, i)`. -/
def Expecting (p : DepthPacketStreamParser) (X i : Nat) : Prop :=
  p.started_ = true ∧ p.work_buffer_.length = 0 ∧ p.work_buffer_.capacity = single_image
    ∧ p.current_sequence_ = X ∧ p.current_subsequence_ = i

/-- The transport delivering whole sub-packets one after the other, all calls
with the same answer of `ready()`. The result is the parser afterwards and,
for each sub-packet, the path its terminating call took. -/
def feedSubPackets (L : FooterLayout) (ready : Bool) :
    DepthPacketStreamParser → List SubPacket → Option (DepthPacketStreamParser × List Path)
  | p, [] => some (p, [])
  | p, sp :: sps =>
    match feed L p (sp.body.map (fun f => (ready, f))) with
    | none => none
    | some q0 =>
      match onDataReceived L q0.1 ready sp.last with
      | none => none
      | some s =>
        match feedSubPackets L ready s.parser sps with
        | none => none
        | some r => some (r.1, s.path :: r.2)

/-- One call of `onDataReceived` in a trace: the fragment and what the call
did. -/
structure Call where
  fragment : List Byte
  step : Step

/-- The trace of the calls the transport makes for a stream of fragments. -/
def calls (L : FooterLayout) :
    DepthPacketStreamParser → List (Bool × List Byte) → Option (List Call)
  | _, [] => some []
  | p, e :: es =>
    match onDataReceived L p e.1 e.2 with
    | none => none
    | some s =>
      match calls L s.parser es with
      | none => none
      | some cs => some ({ fragment := e.2, step := s } :: cs)

/-- Whether a fragment carries a terminator: it can hold a footer and the
footer passes the magic test. -/
def carriesTerminator (L : FooterLayout) (f : List Byte) : Bool :=
  decide (L.size ≤ f.length) && isTerminator (footerOf L f)

/-- The footers `(sequence, subsequence)` of the calls of a trace whose
fragment carries a terminator, in order. -/
def terminatorFooters (L : FooterLayout) (tr : List Call) : List (Nat × Nat) :=
  (tr.filter (fun c => carriesTerminator L c.fragment)).map
    (fun c => ((footerOf L c.fragment).sequence, (footerOf L c.fragment).subsequence))

/-- A stretch of a trace that starts with a terminating call, contains no call
that took the drop path, in which every terminating call was accepted, and
whose terminating calls carry the footers `(X, 0), ..., (X, c - 1)` in this
order. -/
def Run (L : FooterLayout) (suf : List Call) (X c : Nat) : Prop :=
  (∀ x ∈ suf, x.step.path ≠ Path.dropped)
  ∧ (∀ x ∈ suf, carriesTerminator L x.fragment = true → x.step.path = Path.accepted)
  ∧ terminatorFooters L suf = (List.range c).map (fun i => (X, i))
  ∧ (∃ c0 rest, suf = c0 :: rest ∧ carriesTerminator L c0.fragment = true)

/-- What the trace so far says about a parser that is in the middle of a
frame: the trace ends with a run for the sub-packets accepted so far. -/
def MidFrame (L : FooterLayout) (tr : List Call) (p : DepthPacketStreamParser) : Prop :=
  p.current_subsequence_ ≠ 0 →
    ∃ pre suf, tr = pre ++ suf ∧ Run L suf p.current_sequence_ p.current_subsequence_

/-- The `k` sub-packets `sp j, sp (j+1), ...` as a list. -/
def subPacketList (sp : Nat → SubPacket) (j : Nat) : Nat → List SubPacket
  | 0 => []
  | k + 1 => sp j :: subPacketList sp (j + 1) k

/-! ## An instance of the footer layout, and example streams

The theorems hold for every footer layout. To exhibit concrete inputs, the
record is laid out as 38 little-endian 32-bit words: `magic0`, `magic1`, a
timestamp, `sequence`, `subsequence`, a length and 32 further words. -/

/-- The 32-bit little-endian word at offset `off`. -/
def readU32 (bs : List Byte) (off : Nat) : Nat :=
  (bs.getD off 0).val + 256 * (bs.getD (off + 1) 0).val
    + 65536 * (bs.getD (off + 2) 0).val + 16777216 * (bs.getD (off + 3) 0).val

/-- The four bytes of a 32-bit little-endian word. -/
def writeU32 (n : Nat) : List Byte :=
  [Fin.ofNat (n % 256), Fin.ofNat (n / 256 % 256), Fin.ofNat (n / 65536 % 256),
    Fin.ofNat (n / 16777216 % 256)]

/-- The fields read off the bytes of a footer record. -/
def readFooter (bs : List Byte) : DepthSubPacketFooter :=
  { magic0 := readU32 bs 0, magic1 := readU32 bs 4
    sequence := readU32 bs 12, subsequence := readU32 bs 16 }

/-- The 152-byte footer layout. -/
def kinectLayout : FooterLayout :=
  { size := 152
    read := readFooter
    size_pos := by decide
    sequence_lt := fun bs => by
      have h0 := (bs.getD 12 0).isLt
      have h1 := (bs.getD (12 + 1) 0).isLt
      have h2 := (bs.getD (12 + 2) 0).isLt
      have h3 := (bs.getD (12 + 3) 0).isLt
      simp only [readFooter, readU32, u32]
      omega
    subsequence_lt := fun bs => by
      have h0 := (bs.getD 16 0).isLt
      have h1 := (bs.getD (16 + 1) 0).isLt
      have h2 := (bs.getD (16 + 2) 0).isLt
      have h3 := (bs.getD (16 + 3) 0).isLt
      simp only [readFooter, readU32, u32]
      omega }

/-- The bytes of a footer with the magic values and the given counters; all
other words are zero. -/
def footerBytes (seq sub : Nat) : List Byte :=
  writeU32 0 ++ writeU32 9 ++ writeU32 0 ++ writeU32 seq ++ writeU32 sub
    ++ List.replicate 132 0

/-- An example sub-packet `(seq, sub)` whose payload bytes all equal `fill`,
delivered in two fragments: 200000 payload bytes, then the remaining 98496
payload bytes followed by the footer. -/
def exampleSubPacket (fill : Byte) (seq sub : Nat) : SubPacket :=
  { body := [List.replicate 200000 fill]
    last := List.replicate 98496 fill ++ footerBytes seq sub }

/-- An example frame: ten example sub-packets of sequence `seq`. -/
def exampleFrame (fill : Byte) (seq : Nat) : Nat → SubPacket :=
  fun j => exampleSubPacket fill seq j

/-- An example state: a started parser with an empty accumulator that expects
sub-packet `(seq, sub)`, the first region being front. -/
def exampleSynced (seq sub : Nat) : DepthPacketStreamParser :=
  { DepthPacketStreamParser.construct (fun _ => 0) with
    started_ := true
    current_sequence_ := seq
    current_subsequence_ := sub
    work_buffer_ := { capacity := single_image, length := 0, data := single_image * sub } }

/-- An example terminating fragment: `n` payload bytes equal to `fill`
followed by the footer `(seq, sub)`. -/
def exampleFragment (n : Nat) (fill : Byte) (seq sub : Nat) : List Byte :=
  List.replicate n fill ++ footerBytes seq sub

/-- An example reachable state: the freshly constructed parser after it has
accepted sub-packet `(0, 0)` delivered as one fragment. -/
def exampleStarted : DepthPacketStreamParser :=
  accepted kinectLayout (DepthPacketStreamParser.construct (fun _ => 0))
    (exampleFragment 298496 1 0 0) 1

/-- An example corrupted sub-packet: one fragment with only 1000 payload bytes
before the footer `(seq, sub)`. -/
def exampleShort (seq sub : Nat) : SubPacket :=
  { body := [], last := exampleFragment 1000 1 seq sub }

/-- An example oversized sub-packet: a first fragment of 300000 payload bytes
without terminator, more than a sub-packet holds, then a fragment with 1000
payload bytes and the footer `(seq, sub)`. -/
def exampleOversize (seq sub : Nat) : SubPacket :=
  { body := [List.replicate 300000 1], last := exampleFragment 1000 1 seq sub }

/-! ## Single calls -/

theorem single_image_eq : single_image = 298496 := by decide

theorem footerOf_append (L : FooterLayout) (pl ft : List Byte) (h : ft.length = L.size) :
    footerOf L (pl ++ ft) = L.read ft := by
  unfold footerOf
  rw [List.length_append, h, Nat.add_sub_cancel, List.drop_left]

theorem onData_empty (L : FooterLayout) (p : DepthPacketStreamParser) (r : Bool) :
    onDataReceived L p r [] = some { parser := p, processed := [], path := Path.ignored } := by
  simp [onDataReceived]

/-- A fragment without terminator that fits is appended. -/
theorem onData_continue (L : FooterLayout) (p : DepthPacketStreamParser) (r : Bool)
    (f : List Byte) (hlen : L.size ≤ f.length) (hmag : isTerminator (footerOf L f) = false)
    (hfit : p.work_buffer_.length + f.length ≤ p.work_buffer_.capacity) :
    onDataReceived L p r f = some
      { parser :=
          { p with
            heap := memcpy p.heap (p.work_buffer_.data + p.work_buffer_.length) f f.length
            work_buffer_ :=
              { p.work_buffer_ with length := p.work_buffer_.length + f.length } }
        processed := []
        path := Path.continued } := by
  have hpos := L.size_pos
  have h0 : f.length ≠ 0 := by omega
  have h1 : ¬ f.length < L.size := by omega
  have h2 : ¬ p.work_buffer_.length + f.length > p.work_buffer_.capacity := by omega
  simp [onDataReceived, hmag, h0, h1, h2]

/-- A terminating fragment that completes sub-packet `0..8` as expected. -/
theorem onData_accept_mid (L : FooterLayout) (p : DepthPacketStreamParser) (r : Bool)
    (f : List Byte) (hterm : IsTerminating L f)
    (hfull : p.work_buffer_.length + (f.length - L.size) = p.work_buffer_.capacity)
    (hseq : p.started_ = true → (footerOf L f).sequence = p.current_sequence_)
    (hsync : p.started_ = false → (footerOf L f).subsequence = 0)
    (hsub : (footerOf L f).subsequence = p.current_subsequence_)
    (hmid : p.current_subsequence_ < 9) :
    onDataReceived L p r f = some
      { parser := accepted L p f (p.current_subsequence_ + 1)
        processed := []
        path := Path.accepted } := by
  obtain ⟨hlen, hmag⟩ := hterm
  have hpos := L.size_pos
  have h0 : f.length ≠ 0 := by omega
  have h1 : ¬ f.length < L.size := by omega
  have h2 : ¬ p.work_buffer_.length + (f.length - L.size) > p.work_buffer_.capacity := by omega
  have h3 : (p.current_subsequence_ + 1) % u32 % 10 = p.current_subsequence_ + 1 := by
    simp only [u32]; omega
  cases hst : p.started_ with
  | false =>
    have := hsync hst
    simp [onDataReceived, hmag, h0, h1, hfull, hst, hsub, h3, accepted, this]
    simp [← hsub, this]
  | true =>
    have := hseq hst
    simp [onDataReceived, hmag, h0, h1, hfull, hst, hsub, h3, accepted, this]

theorem swap_back (b : DoubleBuffer) : b.swap.back = b.front := by
  cases b with
  | mk b0 b1 fl => cases fl <;> rfl

theorem swap_front (b : DoubleBuffer) : b.swap.front = b.back := by
  cases b with
  | mk b0 b1 fl => cases fl <;> rfl

/-- The terminating fragment of sub-packet 9 with a ready processor: the frame
is handed over. -/
theorem onData_accept_last (L : FooterLayout) (p : DepthPacketStreamParser)
    (f : List Byte) (hterm : IsTerminating L f)
    (hfull : p.work_buffer_.length + (f.length - L.size) = p.work_buffer_.capacity)
    (hst : p.started_ = true)
    (hseq : (footerOf L f).sequence = p.current_sequence_)
    (hsub : (footerOf L f).subsequence = p.current_subsequence_)
    (hlast : p.current_subsequence_ = 9) :
    onDataReceived L p true f = some
      { parser :=
          { accepted L p f 0 with
            current_sequence_ := (p.current_sequence_ + 1) % u32
            buffer_ := p.buffer_.swap }
        processed :=
          [{ sequence := p.current_sequence_
             buffer := p.buffer_.front.data
             buffer_length := p.buffer_.front.capacity }]
        path := Path.accepted } := by
  obtain ⟨hlen, hmag⟩ := hterm
  have hpos := L.size_pos
  have h0 : f.length ≠ 0 := by omega
  have h1 : ¬ f.length < L.size := by omega
  have h3 : (p.current_subsequence_ + 1) % u32 % 10 = 0 := by
    simp only [u32]; omega
  have hlt : p.current_sequence_ < u32 := by
    rw [← hseq]; exact L.sequence_lt _
  have h4 : ((p.current_sequence_ + 1) % u32 + u32 - 1) % u32 = p.current_sequence_ := by
    simp only [u32] at hlt ⊢; omega
  simp [onDataReceived, hmag, h0, h1, hfull, hst, hsub, h3, accepted, hseq, h4, swap_back]

/-- The terminating fragment of sub-packet 9 with a processor that is not
ready: the frame is skipped and the buffers keep their roles. -/
theorem onData_accept_last_busy (L : FooterLayout) (p : DepthPacketStreamParser)
    (f : List Byte) (hterm : IsTerminating L f)
    (hfull : p.work_buffer_.length + (f.length - L.size) = p.work_buffer_.capacity)
    (hst : p.started_ = true)
    (hseq : (footerOf L f).sequence = p.current_sequence_)
    (hsub : (footerOf L f).subsequence = p.current_subsequence_)
    (hlast : p.current_subsequence_ = 9) :
    onDataReceived L p false f = some
      { parser :=
          { accepted L p f 0 with current_sequence_ := (p.current_sequence_ + 1) % u32 }
        processed := []
        path := Path.accepted } := by
  obtain ⟨hlen, hmag⟩ := hterm
  have hpos := L.size_pos
  have h0 : f.length ≠ 0 := by omega
  have h1 : ¬ f.length < L.size := by omega
  have h3 : (p.current_subsequence_ + 1) % u32 % 10 = 0 := by
    simp only [u32]; omega
  simp [onDataReceived, hmag, h0, h1, hfull, hst, hsub, h3, accepted, hseq]

/-- A complete sub-packet whose footer is not the expected one is dropped by a
started parser. -/
theorem onData_mismatch (L : FooterLayout) (p : DepthPacketStreamParser) (r : Bool)
    (f : List Byte) (hterm : IsTerminating L f)
    (hfull : p.work_buffer_.length + (f.length - L.size) = p.work_buffer_.capacity)
    (hst : p.started_ = true)
    (hne : (footerOf L f).sequence ≠ p.current_sequence_
      ∨ (footerOf L f).subsequence ≠ p.current_subsequence_) :
    onDataReceived L p r f = some
      { parser :=
          { p with
            heap := memcpy p.heap (p.work_buffer_.data + p.work_buffer_.length) f
              (f.length - L.size)
            current_subsequence_ := 0
            current_sequence_ := ((footerOf L f).sequence + 1) % u32
            work_buffer_ := { p.work_buffer_ with length := 0, data := p.buffer_.front.data } }
        processed := []
        path := Path.dropped } := by
  obtain ⟨hlen, hmag⟩ := hterm
  have hpos := L.size_pos
  have h0 : f.length ≠ 0 := by omega
  have h1 : ¬ f.length < L.size := by omega
  simp [onDataReceived, hmag, h0, h1, hfull, hst, hne, drop_packet]

/-- A complete sub-packet with a sub-sequence other than 0 is dropped by a
parser that has not started. -/
theorem onData_presync (L : FooterLayout) (p : DepthPacketStreamParser) (r : Bool)
    (f : List Byte) (hterm : IsTerminating L f)
    (hfull : p.work_buffer_.length + (f.length - L.size) = p.work_buffer_.capacity)
    (hst : p.started_ = false)
    (hne : (footerOf L f).subsequence ≠ 0) :
    onDataReceived L p r f = some
      { parser :=
          { p with
            heap := memcpy p.heap (p.work_buffer_.data + p.work_buffer_.length) f
              (f.length - L.size)
            current_subsequence_ := 0
            current_sequence_ := ((footerOf L f).sequence + 1) % u32
            work_buffer_ := { p.work_buffer_ with length := 0, data := p.buffer_.front.data } }
        processed := []
        path := Path.dropped } := by
  obtain ⟨hlen, hmag⟩ := hterm
  have hpos := L.size_pos
  have h0 : f.length ≠ 0 := by omega
  have h1 : ¬ f.length < L.size := by omega
  simp [onDataReceived, hmag, h0, h1, hfull, hst, hne, drop_packet]

/-! ## The heap -/

theorem memcpy_outside (heap : Nat → Byte) (dst : Nat) (src : List Byte) (n a : Nat)
    (h : a < dst ∨ dst + n ≤ a) : memcpy heap dst src n a = heap a := by
  unfold memcpy
  split
  · have hlen : (src.take n).length ≤ a - dst := by
      have := List.length_take_le n src
      omega
    rw [List.getElem?_eq_none hlen]
    rfl
  · rfl

theorem memcpy_inside (heap : Nat → Byte) (dst : Nat) (src : List Byte) (n a : Nat)
    (h1 : dst ≤ a) (h2 : a - dst < n) (h3 : a - dst < src.length) :
    memcpy heap dst src n a = src[a - dst] := by
  unfold memcpy
  rw [if_pos h1, List.getElem?_take_of_lt h2, List.getElem?_eq_getElem h3]
  rfl

/-! ## Streams of calls -/

theorem feed_append (L : FooterLayout) (p : DepthPacketStreamParser)
    (xs ys : List (Bool × List Byte)) :
    feed L p (xs ++ ys) =
      match feed L p xs with
      | none => none
      | some r =>
        match feed L r.1 ys with
        | none => none
        | some r2 => some (r2.1, r.2 ++ r2.2) := by
  induction xs generalizing p with
  | nil =>
    simp only [List.nil_append, feed]
    cases feed L p ys <;> simp
  | cons e es ih =>
    simp only [List.cons_append, feed]
    cases h1 : onDataReceived L p e.1 e.2 with
    | none => rfl
    | some s =>
      have ih2 := ih s.parser
      cases h2 : feed L s.parser es with
      | none => simp [h2] at ih2 ⊢; simp [ih2]
      | some r =>
        cases h3 : feed L r.1 ys with
        | none => simp [h2, h3] at ih2 ⊢; simp [ih2]
        | some r2 => simp [h2, h3] at ih2 ⊢; simp [ih2]

theorem feed_append_some (L : FooterLayout) (p q q2 : DepthPacketStreamParser)
    (xs ys : List (Bool × List Byte)) (l1 l2 : List DepthPacket)
    (h1 : feed L p xs = some (q, l1)) (h2 : feed L q ys = some (q2, l2)) :
    feed L p (xs ++ ys) = some (q2, l1 ++ l2) := by
  rw [feed_append, h1]
  simp only [h2]

theorem feed_snoc_some (L : FooterLayout) (p q : DepthPacketStreamParser)
    (xs : List (Bool × List Byte)) (l1 : List DepthPacket) (r : Bool) (f : List Byte) (s : Step)
    (h1 : feed L p xs = some (q, l1)) (h2 : onDataReceived L q r f = some s) :
    feed L p (xs ++ [(r, f)]) = some (s.parser, l1 ++ s.processed) := by
  apply feed_append_some L p q s.parser xs [(r, f)] l1 s.processed h1
  simp only [feed, h2, List.append_nil]

/-- Feeding fragments without terminator that fit: they are appended, nothing
else changes, and only the bytes behind the fill mark are written. -/
theorem feed_continuations (L : FooterLayout) (evs : List (Bool × List Byte)) :
    ∀ p : DepthPacketStreamParser,
      (∀ e ∈ evs, IsContinuation L e.2) →
      p.work_buffer_.length + (evs.map (fun e => e.2.length)).sum ≤ p.work_buffer_.capacity →
      ∃ h : Nat → Byte,
        feed L p evs = some
          ({ p with
             heap := h
             work_buffer_ :=
               { p.work_buffer_ with
                 length := p.work_buffer_.length + (evs.map (fun e => e.2.length)).sum } }, [])
        ∧ ∀ a, (a < p.work_buffer_.data + p.work_buffer_.length
              ∨ p.work_buffer_.data + p.work_buffer_.length
                  + (evs.map (fun e => e.2.length)).sum ≤ a) → h a = p.heap a := by
  induction evs with
  | nil =>
    intro p _ _
    exact ⟨p.heap, by simp [feed], fun _ _ => rfl⟩
  | cons e es ih =>
    intro p hall hfit
    simp only [List.map_cons, List.sum_cons] at hfit ⊢
    have he := hall e (List.mem_cons_self _ _)
    have hes : ∀ x ∈ es, IsContinuation L x.2 := fun x hx => hall x (List.mem_cons_of_mem _ hx)
    rcases he with hnil | ⟨hlen, hmag⟩
    · obtain ⟨h, hfeed, hfr⟩ := ih p hes (by rw [hnil] at hfit; simpa using hfit)
      refine ⟨h, ?_, ?_⟩
      · simp only [feed, hnil, onData_empty, hfeed, List.length_nil, Nat.zero_add, List.nil_append]
      · intro a ha
        apply hfr
        rw [hnil] at ha
        simpa using ha
    · have hstep := onData_continue L p e.1 e.2 hlen hmag (by omega)
      obtain ⟨h, hfeed, hfr⟩ := ih
        { p with
          heap := memcpy p.heap (p.work_buffer_.data + p.work_buffer_.length) e.2 e.2.length
          work_buffer_ := { p.work_buffer_ with length := p.work_buffer_.length + e.2.length } }
        hes (by simp only []; omega)
      refine ⟨h, ?_, ?_⟩
      · simp only [feed, hstep, hfeed, List.nil_append, Nat.add_assoc]
      · intro a ha
        rw [hfr a (by simp only []; omega)]
        exact memcpy_outside _ _ _ _ _ (by omega)

/-- Feeding one sub-packet is feeding its fragments without terminator, which
are appended, and then its terminating fragment. -/
theorem feed_subpacket (L : FooterLayout) (p : DepthPacketStreamParser) (r : Bool)
    (sp : SubPacket) (hbody : ∀ f ∈ sp.body, IsContinuation L f)
    (hfit : p.work_buffer_.length + (sp.body.map List.length).sum ≤ p.work_buffer_.capacity) :
    ∃ h : Nat → Byte,
      (∀ a, (a < p.work_buffer_.data + p.work_buffer_.length
          ∨ p.work_buffer_.data + p.work_buffer_.length + (sp.body.map List.length).sum ≤ a) →
          h a = p.heap a)
      ∧ feed L p (sp.events r) =
          match onDataReceived L (beforeLast p h (sp.body.map List.length).sum) r sp.last with
          | none => none
          | some s => some (s.parser, s.processed) := by
  have hsum : ((sp.body.map (fun f => (r, f))).map (fun e => e.2.length)).sum
      = (sp.body.map List.length).sum := by
    rw [List.map_map]; rfl
  obtain ⟨h, hfeed, hfr⟩ := feed_continuations L (sp.body.map (fun f => (r, f))) p
    (by
      intro e he
      obtain ⟨f, hf, rfl⟩ := List.mem_map.mp he
      exact hbody f hf)
    (by rw [hsum]; exact hfit)
  rw [hsum] at hfeed hfr
  refine ⟨h, hfr, ?_⟩
  unfold SubPacket.events
  rw [feed_append, hfeed]
  simp only [feed, beforeLast]
  cases onDataReceived L _ r sp.last <;> simp

/-- A full-size sub-packet `(N, j)`, `j < 9`, fed to a parser with an empty
accumulator that expects it (or has not started, for `j = 0`): it is accepted
without any packet being processed, and only the accumulator's slot is
written. -/
theorem feed_sub_mid (L : FooterLayout) (p : DepthPacketStreamParser) (r : Bool)
    (sp : SubPacket) (N j : Nat) (hsp : sp.FullSize L N j)
    (hcap : p.work_buffer_.capacity = single_image) (hlen : p.work_buffer_.length = 0)
    (hsub : p.current_subsequence_ = j) (hj : j < 9)
    (hseq : p.started_ = true → p.current_sequence_ = N)
    (hsync : p.started_ = false → j = 0) :
    ∃ h : Nat → Byte,
      feed L p (sp.events r) = some
        ({ p with
           heap := h
           started_ := true
           current_sequence_ := N
           current_subsequence_ := j + 1
           work_buffer_ :=
             { p.work_buffer_ with
               length := 0, data := p.buffer_.front.data + single_image * (j + 1) } }, [])
      ∧ ∀ a, (a < p.work_buffer_.data ∨ p.work_buffer_.data + single_image ≤ a) →
          h a = p.heap a := by
  obtain ⟨hbody, hterm, hpay, hs, hq⟩ := hsp
  unfold SubPacket.payloadLength at hpay
  obtain ⟨h, hfr, hfeed⟩ := feed_subpacket L p r sp hbody (by omega)
  have hstep := onData_accept_mid L (beforeLast p h (sp.body.map List.length).sum) r sp.last
    hterm (by simp only [beforeLast]; omega)
    (by intro hst; rw [hs]; exact (hseq hst).symm)
    (by intro hst; rw [hq]; exact hsync hst)
    (by rw [hq]; exact hsub.symm)
    (by simp only [beforeLast]; omega)
  rw [hstep] at hfeed
  refine ⟨(memcpy h (p.work_buffer_.data + (p.work_buffer_.length + (sp.body.map List.length).sum))
    sp.last (sp.last.length - L.size)), ?_, ?_⟩
  · rw [hfeed]
    simp only [accepted, beforeLast, hs, hsub, hcap]
  · intro a ha
    rw [memcpy_outside _ _ _ _ _ (by omega)]
    exact hfr a (by omega)

/-- A full-size sub-packet `(N, 9)` fed to a started parser with an empty
accumulator that expects it, the processor being ready: the buffers are
swapped and the frame is processed. -/
theorem feed_sub_last (L : FooterLayout) (p : DepthPacketStreamParser)
    (sp : SubPacket) (N : Nat) (hsp : sp.FullSize L N 9)
    (hcap : p.work_buffer_.capacity = single_image) (hlen : p.work_buffer_.length = 0)
    (hsub : p.current_subsequence_ = 9) (hst : p.started_ = true)
    (hseq : p.current_sequence_ = N) :
    ∃ h : Nat → Byte,
      feed L p (sp.events true) = some
        ({ p with
           heap := h
           buffer_ := p.buffer_.swap
           current_sequence_ := (N + 1) % u32
           current_subsequence_ := 0
           work_buffer_ :=
             { p.work_buffer_ with length := 0, data := p.buffer_.front.data } },
         [{ sequence := N
            buffer := p.buffer_.front.data
            buffer_length := p.buffer_.front.capacity }])
      ∧ (∃ q, feed L p (sp.events true).dropLast = some (q, []))
      ∧ ∀ a, (a < p.work_buffer_.data ∨ p.work_buffer_.data + single_image ≤ a) →
          h a = p.heap a := by
  obtain ⟨hbody, hterm, hpay, hs, hq⟩ := hsp
  unfold SubPacket.payloadLength at hpay
  obtain ⟨h, hfr, hfeed⟩ := feed_subpacket L p true sp hbody (by omega)
  have hstep := onData_accept_last L (beforeLast p h (sp.body.map List.length).sum) sp.last
    hterm (by simp only [beforeLast]; omega) hst
    (by rw [hs]; exact hseq.symm)
    (by rw [hq]; exact hsub.symm)
    hsub
  rw [hstep] at hfeed
  refine ⟨(memcpy h (p.work_buffer_.data + (p.work_buffer_.length + (sp.body.map List.length).sum))
    sp.last (sp.last.length - L.size)), ?_, ?_, ?_⟩
  · rw [hfeed]
    simp only [accepted, beforeLast, hs, hseq, hst, Nat.mul_zero, Nat.add_zero]
  · obtain ⟨h2, hfeed2, -⟩ := feed_continuations L (sp.body.map (fun f => (true, f))) p
      (by
        intro e he
        obtain ⟨f, hf, rfl⟩ := List.mem_map.mp he
        exact hbody f hf)
      (by rw [List.map_map]; show _ + (sp.body.map List.length).sum ≤ _; omega)
    unfold SubPacket.events
    rw [List.dropLast_concat]
    exact ⟨_, hfeed2⟩
  · intro a ha
    rw [memcpy_outside _ _ _ _ _ (by omega)]
    exact hfr a (by omega)

theorem subPacketsFrom_succ (ready : Bool) (sp : Nat → SubPacket) (j k : Nat) :
    subPacketsFrom ready sp j (k + 1)
      = subPacketsFrom ready sp j k ++ (sp (j + k)).events ready := by
  induction k generalizing j with
  | zero => simp [subPacketsFrom]
  | succ k ih =>
    rw [subPacketsFrom, ih (j + 1), subPacketsFrom, List.append_assoc]
    have : j + 1 + k = j + (k + 1) := by omega
    rw [this]

/-- Sub-packets `j, ..., j + k` of sequence `N` (none of them the last of the
frame) fed to a parser with an empty accumulator that expects `(N, j)`: all are
accepted, nothing is processed, and the writes stay in the accumulator's slot
and in slots `j + 1, ..., j + k` of the front buffer. -/
theorem feed_subPackets_mid (L : FooterLayout) (r : Bool) (sp : Nat → SubPacket) (N : Nat)
    (k : Nat) :
    ∀ (j : Nat) (p : DepthPacketStreamParser),
      (∀ i, i < 10 → (sp i).FullSize L N i) →
      p.work_buffer_.capacity = single_image → p.work_buffer_.length = 0 →
      p.current_subsequence_ = j → j + k < 9 →
      (p.started_ = true → p.current_sequence_ = N) →
      (p.started_ = false → j = 0) →
      ∃ h : Nat → Byte,
        feed L p (subPacketsFrom r sp j (k + 1)) = some
          ({ p with
             heap := h
             started_ := true
             current_sequence_ := N
             current_subsequence_ := j + k + 1
             work_buffer_ :=
               { p.work_buffer_ with
                 length := 0, data := p.buffer_.front.data + single_image * (j + k + 1) } }, [])
        ∧ ∀ a, (a < p.work_buffer_.data ∨ p.work_buffer_.data + single_image ≤ a) →
            (a < p.buffer_.front.data + single_image * (j + 1)
              ∨ p.buffer_.front.data + single_image * (j + k + 1) ≤ a) →
            h a = p.heap a := by
  induction k with
  | zero =>
    intro j p hsp hcap hlen hsub hj hseq hsync
    obtain ⟨h, hfeed, hfr⟩ := feed_sub_mid L p r (sp j) N j (hsp j (by omega)) hcap hlen hsub
      (by omega) hseq hsync
    refine ⟨h, ?_, fun a ha _ => hfr a ha⟩
    simp only [subPacketsFrom, List.append_nil, Nat.add_zero]
    exact hfeed
  | succ k ih =>
    intro j p hsp hcap hlen hsub hj hseq hsync
    obtain ⟨h1, hfeed1, hfr1⟩ := feed_sub_mid L p r (sp j) N j (hsp j (by omega)) hcap hlen
      hsub (by omega) hseq hsync
    obtain ⟨h2, hfeed2, hfr2⟩ := ih (j + 1)
      { p with
        heap := h1
        started_ := true
        current_sequence_ := N
        current_subsequence_ := j + 1
        work_buffer_ :=
          { p.work_buffer_ with
            length := 0, data := p.buffer_.front.data + single_image * (j + 1) } }
      hsp hcap rfl rfl (by omega) (fun _ => rfl) (fun hst => by simp at hst)
    refine ⟨h2, ?_, ?_⟩
    · rw [subPacketsFrom, feed_append, hfeed1]
      simp only [hfeed2, List.append_nil]
      have e : j + 1 + k + 1 = j + (k + 1) + 1 := by omega
      rw [e]
    · intro a ha hb
      rw [hfr2 a (by simp only [single_image_eq] at hb ⊢; omega)
        (by simp only [single_image_eq] at hb ⊢; omega)]
      exact hfr1 a ha

/-- One whole frame of sequence `N` fed to a parser with an empty accumulator
that expects sub-packet 0 of it (or has not started), the processor being
ready: one packet is processed, during the last call; the buffers are swapped;
the writes went to the accumulator's slot (sub-packet 0) and to slots 1 to 9 of
the buffer that was front. -/
theorem feed_frame (L : FooterLayout) (p : DepthPacketStreamParser) (N : Nat)
    (sp : Nat → SubPacket) (hsp : ∀ i, i < 10 → (sp i).FullSize L N i)
    (hcap : p.work_buffer_.capacity = single_image) (hlen : p.work_buffer_.length = 0)
    (hsub : p.current_subsequence_ = 0)
    (hseq : p.started_ = true → p.current_sequence_ = N) :
    ∃ h : Nat → Byte,
      feed L p (frameEvents true sp) = some
        ({ p with
           heap := h
           buffer_ := p.buffer_.swap
           started_ := true
           current_sequence_ := (N + 1) % u32
           current_subsequence_ := 0
           work_buffer_ := { p.work_buffer_ with length := 0, data := p.buffer_.front.data } },
         [{ sequence := N
            buffer := p.buffer_.front.data
            buffer_length := p.buffer_.front.capacity }])
      ∧ (∃ q, feed L p (frameEvents true sp).dropLast = some (q, []))
      ∧ ∀ a, (a < p.work_buffer_.data ∨ p.work_buffer_.data + single_image ≤ a) →
          (a < p.buffer_.front.data + single_image
            ∨ p.buffer_.front.data + single_image * 10 ≤ a) →
          h a = p.heap a := by
  obtain ⟨h1, hfeed1, hfr1⟩ := feed_subPackets_mid L true sp N 8 0 p hsp hcap hlen hsub
    (by omega) hseq (fun _ => rfl)
  obtain ⟨h2, hfeed2, ⟨q, hq⟩, hfr2⟩ := feed_sub_last L
    { p with
      heap := h1
      started_ := true
      current_sequence_ := N
      current_subsequence_ := 0 + 8 + 1
      work_buffer_ :=
        { p.work_buffer_ with
          length := 0, data := p.buffer_.front.data + single_image * (0 + 8 + 1) } }
    (sp 9) N (hsp 9 (by omega)) hcap rfl rfl rfl rfl
  have hsplit : frameEvents true sp = subPacketsFrom true sp 0 9 ++ (sp 9).events true := by
    unfold frameEvents
    rw [subPacketsFrom_succ]
  have hne : (sp 9).events true ≠ [] := by
    unfold SubPacket.events
    simp
  refine ⟨h2, ?_, ⟨q, ?_⟩, ?_⟩
  · rw [hsplit, feed_append, hfeed1]
    simp only [hfeed2, List.nil_append]
  · rw [hsplit, List.dropLast_append_of_ne_nil _ hne, feed_append, hfeed1]
    simp only [hq, List.nil_append]
  · intro a ha hb
    rw [hfr2 a (by simp only [single_image_eq] at hb ⊢; omega)]
    exact hfr1 a ha (by simp only [single_image_eq] at hb ⊢; omega)

/-! ## The freshly constructed parser -/

theorem construct_buffer (h : Nat → Byte) :
    (DepthPacketStreamParser.construct h).buffer_
      = { buffer0 := { capacity := 2984960, length := 2984960, data := 0 }
          buffer1 := { capacity := 2984960, length := 2984960, data := 2984960 }
          front_is_1 := false } := by
  simp [DepthPacketStreamParser.construct, DoubleBuffer.allocate, DoubleBuffer.setFrontLength,
    DoubleBuffer.setBackLength, DoubleBuffer.front, DoubleBuffer.back, single_image]

theorem construct_work_buffer (h : Nat → Byte) :
    (DepthPacketStreamParser.construct h).work_buffer_
      = { capacity := 298496, length := 0, data := 0 } := by
  simp [DepthPacketStreamParser.construct, DoubleBuffer.allocate, DoubleBuffer.setFrontLength,
    DoubleBuffer.setBackLength, DoubleBuffer.front, DoubleBuffer.back, single_image]

theorem construct_heap (h : Nat → Byte) : (DepthPacketStreamParser.construct h).heap = h := rfl

theorem front_val (b0 b1 : Buffer) (fl : Bool) :
    (DoubleBuffer.mk b0 b1 fl).front = if fl then b1 else b0 := rfl

theorem back_val (b0 b1 : Buffer) (fl : Bool) :
    (DoubleBuffer.mk b0 b1 fl).back = if fl then b0 else b1 := rfl

theorem inv_construct (h : Nat → Byte) : Inv (DepthPacketStreamParser.construct h) := by
  unfold Inv
  rw [construct_buffer, construct_work_buffer]
  refine ⟨rfl, rfl, rfl, Nat.zero_le _, ?_, ?_, ?_, ?_⟩
  · show (0 : Nat) < 10
    decide
  · show u32 - 1 < u32
    decide
  · intro _
    rfl
  · left
    rfl

/-! ## The paths of one call -/

/-- The result of a call on a terminating fragment that passes all checks. -/
theorem onData_accept (L : FooterLayout) (p : DepthPacketStreamParser) (r : Bool)
    (f : List Byte) (s : Step) (h : onDataReceived L p r f = some s)
    (hlen : L.size ≤ f.length) (hterm : isTerminator (footerOf L f) = true)
    (hacc : AcceptCond L p f) :
    (nextSub p ≠ 0
        ∧ s = { parser := accepted L p f (nextSub p), processed := [], path := Path.accepted })
    ∨ (nextSub p = 0 ∧ r = false
        ∧ s = { parser :=
                  { accepted L p f 0 with
                    current_sequence_ := ((footerOf L f).sequence + 1) % u32 }
                processed := [], path := Path.accepted })
    ∨ (nextSub p = 0 ∧ r = true
        ∧ s = { parser :=
                  { accepted L p f 0 with
                    current_sequence_ := ((footerOf L f).sequence + 1) % u32
                    buffer_ := p.buffer_.swap }
                processed :=
                  [{ sequence := (footerOf L f).sequence
                     buffer := p.buffer_.front.data
                     buffer_length := p.buffer_.front.capacity }]
                path := Path.accepted }) := by
  obtain ⟨hfull, hsync, hseq, hsub⟩ := hacc
  have hpos := L.size_pos
  have h0 : f.length ≠ 0 := by omega
  have h1 : ¬ f.length < L.size := by omega
  have hpl : payloadLength L f = f.length - L.size := by simp [payloadLength, hterm]
  rw [hpl] at hfull
  have hlt := L.sequence_lt (f.drop (f.length - L.size))
  have hseqfix : (((footerOf L f).sequence + 1) % u32 + u32 - 1) % u32
      = (footerOf L f).sequence := by
    unfold footerOf
    simp only [u32] at hlt ⊢
    omega
  have hcur : p.started_ = true → p.current_sequence_ = (footerOf L f).sequence :=
    fun hs => (hseq hs).symm
  unfold nextSub
  by_cases hn : (p.current_subsequence_ + 1) % u32 % 10 = 0
  · right
    cases r with
    | false =>
      left
      refine ⟨hn, rfl, ?_⟩
      cases hst : p.started_ with
      | false =>
        have hs0 := hsync hst
        have hc0 : p.current_subsequence_ = 0 := by rw [← hsub]; exact hs0
        rw [hc0] at hn
        exact absurd hn (by decide)
      | true =>
        simp [onDataReceived, h0, h1, hterm, hfull, hst, hsub, hn, hseq hst] at h
        rw [← h]
        simp [accepted, hseq hst]
    | true =>
      right
      refine ⟨hn, rfl, ?_⟩
      cases hst : p.started_ with
      | false =>
        have hs0 := hsync hst
        have hc0 : p.current_subsequence_ = 0 := by rw [← hsub]; exact hs0
        rw [hc0] at hn
        exact absurd hn (by decide)
      | true =>
        simp [onDataReceived, h0, h1, hterm, hfull, hst, hsub, hn, hseq hst, swap_back] at h
        have hfix2 : ((p.current_sequence_ + 1) % u32 + u32 - 1) % u32 = p.current_sequence_ := by
          rw [← hseq hst]; exact hseqfix
        rw [← h]
        simp [accepted, hseq hst, hfix2]
  · left
    refine ⟨hn, ?_⟩
    cases hst : p.started_ with
    | false =>
      have hs0 := hsync hst
      have hc0 : p.current_subsequence_ = 0 := by rw [← hsub]; exact hs0
      rw [onData_accept_mid L p r f ⟨hlen, hterm⟩ hfull hseq hsync hsub (by omega)] at h
      rw [← Option.some.inj h, hc0]
      rfl
    | true =>
      simp [onDataReceived, h0, h1, hterm, hfull, hst, hsub, hn, hseq hst] at h
      rw [← h]
      simp [accepted, hseq hst]

/-- The result of every defined call, path by path. -/
theorem onData_cases (L : FooterLayout) (p : DepthPacketStreamParser) (r : Bool)
    (f : List Byte) (s : Step) (h : onDataReceived L p r f = some s) :
    (f = [] ∧ s = { parser := p, processed := [], path := Path.ignored })
    ∨ (f ≠ [] ∧ L.size ≤ f.length ∧
        ((p.work_buffer_.length + payloadLength L f > p.work_buffer_.capacity
            ∧ s = drop_packet p p.buffer_.front (footerOf L f))
        ∨ (p.work_buffer_.length + payloadLength L f ≤ p.work_buffer_.capacity
            ∧ isTerminator (footerOf L f) = false
            ∧ s = { parser := appended L p f, processed := [], path := Path.continued })
        ∨ (p.work_buffer_.length + payloadLength L f ≤ p.work_buffer_.capacity
            ∧ isTerminator (footerOf L f) = true ∧ ¬ AcceptCond L p f
            ∧ s = drop_packet (appended L p f) p.buffer_.front (footerOf L f))
        ∨ (isTerminator (footerOf L f) = true ∧ AcceptCond L p f ∧ nextSub p ≠ 0
            ∧ s = { parser := accepted L p f (nextSub p), processed := []
                    path := Path.accepted })
        ∨ (isTerminator (footerOf L f) = true ∧ AcceptCond L p f ∧ nextSub p = 0
            ∧ r = false
            ∧ s = { parser :=
                      { accepted L p f 0 with
                        current_sequence_ := ((footerOf L f).sequence + 1) % u32 }
                    processed := [], path := Path.accepted })
        ∨ (isTerminator (footerOf L f) = true ∧ AcceptCond L p f ∧ nextSub p = 0
            ∧ r = true
            ∧ s = { parser :=
                      { accepted L p f 0 with
                        current_sequence_ := ((footerOf L f).sequence + 1) % u32
                        buffer_ := p.buffer_.swap }
                    processed :=
                      [{ sequence := (footerOf L f).sequence
                         buffer := p.buffer_.front.data
                         buffer_length := p.buffer_.front.capacity }]
                    path := Path.accepted }))) := by
  by_cases h0 : f.length = 0
  · left
    have hf : f = [] := List.length_eq_zero.mp h0
    subst hf
    rw [onData_empty] at h
    exact ⟨rfl, (Option.some.inj h).symm⟩
  right
  have hne : f ≠ [] := fun hf => h0 (by rw [hf]; rfl)
  by_cases h1 : f.length < L.size
  · simp [onDataReceived, h0, h1] at h
  refine ⟨hne, by omega, ?_⟩
  have hlt := L.sequence_lt (f.drop (f.length - L.size))
  have hseqfix : (((footerOf L f).sequence + 1) % u32 + u32 - 1) % u32
      = (footerOf L f).sequence := by
    unfold footerOf
    simp only [u32] at hlt ⊢
    omega
  by_cases hov : p.work_buffer_.length + payloadLength L f > p.work_buffer_.capacity
  · left
    refine ⟨hov, ?_⟩
    unfold payloadLength at hov
    simp only [onDataReceived, h0, h1, if_false, hov, if_true] at h
    exact (Option.some.inj h).symm
  right
  cases hterm : isTerminator (footerOf L f) with
  | false =>
    left
    have hpl : payloadLength L f = f.length := by simp [payloadLength, hterm]
    refine ⟨by omega, rfl, ?_⟩
    rw [onData_continue L p r f (by omega) hterm (by omega)] at h
    rw [← Option.some.inj h]
    simp only [appended, hpl]
  | true =>
    right
    have hpl : payloadLength L f = f.length - L.size := by simp [payloadLength, hterm]
    have hov2 : ¬ p.work_buffer_.length + (f.length - L.size) > p.work_buffer_.capacity := by
      omega
    by_cases hfull : p.work_buffer_.length + (f.length - L.size) = p.work_buffer_.capacity
    · cases hst : p.started_ with
      | false =>
        by_cases hs0 : (footerOf L f).subsequence = 0
        · by_cases hsb : (footerOf L f).subsequence = p.current_subsequence_
          · have hacc : AcceptCond L p f :=
              ⟨by omega, fun _ => hs0, fun h' => by simp [hst] at h', hsb⟩
            right
            rcases onData_accept L p r f s h (by omega) hterm hacc with h' | h' | h'
            · exact Or.inl ⟨rfl, hacc, h'⟩
            · exact Or.inr (Or.inl ⟨rfl, hacc, h'⟩)
            · exact Or.inr (Or.inr ⟨rfl, hacc, h'⟩)
          · left
            refine ⟨by omega, rfl, fun hacc => hsb hacc.2.2.2, ?_⟩
            have hsb2 : ¬ 0 = p.current_subsequence_ := by rw [← hs0]; exact hsb
            simp [onDataReceived, h0, h1, hov2, hterm, hfull, hst, hs0, hsb2] at h
            rw [← h]
            simp [drop_packet, appended, hpl, hst]
        · left
          refine ⟨by omega, rfl, fun hacc => hs0 (hacc.2.1 hst), ?_⟩
          simp [onDataReceived, h0, h1, hov2, hterm, hfull, hst, hs0] at h
          rw [← h]
          simp [drop_packet, appended, hpl, hst]
      | true =>
        by_cases hok : (footerOf L f).sequence = p.current_sequence_
            ∧ (footerOf L f).subsequence = p.current_subsequence_
        · have hacc : AcceptCond L p f :=
            ⟨by omega, fun h' => by simp [hst] at h', fun _ => hok.1, hok.2⟩
          right
          rcases onData_accept L p r f s h (by omega) hterm hacc with h' | h' | h'
          · exact Or.inl ⟨rfl, hacc, h'⟩
          · exact Or.inr (Or.inl ⟨rfl, hacc, h'⟩)
          · exact Or.inr (Or.inr ⟨rfl, hacc, h'⟩)
        · left
          refine ⟨by omega, rfl, fun hacc => hok ⟨hacc.2.2.1 hst, hacc.2.2.2⟩, ?_⟩
          have hok2 : ¬ (footerOf L f).sequence = p.current_sequence_
              ∨ ¬ (footerOf L f).subsequence = p.current_subsequence_ := by
            by_cases hx : (footerOf L f).sequence = p.current_sequence_
            · exact Or.inr fun hy => hok ⟨hx, hy⟩
            · exact Or.inl hx
          simp [onDataReceived, h0, h1, hov2, hterm, hfull, hst, hok2] at h
          rw [← h]
          simp [drop_packet, appended, hpl, hst]
    · left
      refine ⟨by omega, rfl, fun hacc => hfull (by have := hacc.1; omega), ?_⟩
      simp [onDataReceived, h0, h1, hov2, hterm, hfull] at h
      rw [← h]
      simp [drop_packet, appended, hpl]

/-! ## Reachable states -/

theorem footer_sequence_lt (L : FooterLayout) (f : List Byte) : (footerOf L f).sequence < u32 :=
  L.sequence_lt _

theorem nextSub_lt (p : DepthPacketStreamParser) : nextSub p < 10 :=
  Nat.mod_lt _ (by decide)

/-- Every defined call keeps the invariant. -/
theorem inv_step (L : FooterLayout) (p : DepthPacketStreamParser) (r : Bool) (f : List Byte)
    (s : Step) (hinv : Inv p) (h : onDataReceived L p r f = some s) : Inv s.parser := by
  have hinv0 := hinv
  obtain ⟨hb0, hb1, hcap, hlen, hsub, hseq, hns, hdata⟩ := hinv
  have hu : ∀ n : Nat, n % u32 < u32 := fun n => Nat.mod_lt _ (by decide)
  have hfs := footer_sequence_lt L f
  have hnx := nextSub_lt p
  have h010 : (0 : Nat) < 10 := by decide
  rcases onData_cases L p r f s h with ⟨-, rfl⟩ | ⟨-, -, hc⟩
  · exact hinv0
  rcases hc with ⟨-, rfl⟩ | ⟨hfit, -, rfl⟩ | ⟨-, -, -, rfl⟩ | ⟨-, -, hn, rfl⟩
    | ⟨-, -, hn, -, rfl⟩ | ⟨-, -, hn, -, rfl⟩
  · exact ⟨hb0, hb1, hcap, Nat.zero_le _, h010, hu _, fun _ => rfl, Or.inl rfl⟩
  · refine ⟨hb0, hb1, hcap, ?_, hsub, hseq, hns, hdata⟩
    show p.work_buffer_.length + payloadLength L f ≤ 298496
    omega
  · exact ⟨hb0, hb1, hcap, Nat.zero_le _, h010, hu _, fun _ => rfl, Or.inl rfl⟩
  · refine ⟨hb0, hb1, hcap, Nat.zero_le _, hnx, hfs, ?_, Or.inl ?_⟩
    · intro hst
      simp [accepted] at hst
    · show p.buffer_.front.data + p.work_buffer_.capacity * nextSub p = _
      rw [hcap]
      rfl
  · refine ⟨hb0, hb1, hcap, Nat.zero_le _, h010, hu _, fun _ => rfl, Or.inl ?_⟩
    show p.buffer_.front.data + p.work_buffer_.capacity * 0 = _
    rw [hcap]
    rfl
  · refine ⟨hb0, hb1, hcap, Nat.zero_le _, h010, hu _, fun _ => rfl, Or.inr ⟨rfl, ?_⟩⟩
    show p.buffer_.front.data + p.work_buffer_.capacity * 0 = p.buffer_.swap.back.data
    rw [swap_back]
    rfl

theorem isSome_ite_some {α : Type} (c : Prop) [Decidable c] (a : α) (x : Option α)
    (hx : x.isSome = true) : (if c then some a else x).isSome = true := by
  by_cases hc : c
  · rw [if_pos hc]
    rfl
  · rw [if_neg hc]
    exact hx

/-- A call on a fragment that is empty or at least as long as a footer has a
defined result. -/
theorem onData_defined (L : FooterLayout) (p : DepthPacketStreamParser) (r : Bool)
    (f : List Byte) (hf : f = [] ∨ L.size ≤ f.length) :
    ∃ s, onDataReceived L p r f = some s := by
  by_cases h0 : f.length = 0
  · have : f = [] := List.length_eq_zero.mp h0
    rw [this]
    exact ⟨_, onData_empty L p r⟩
  · have hnl : ¬ f.length < L.size := by
      rcases hf with hnil | hlen
      · rw [hnil] at h0
        exact absurd rfl h0
      · omega
    have hsome : (onDataReceived L p r f).isSome = true := by
      unfold onDataReceived
      rw [if_neg h0, if_neg hnl]
      simp only []
      repeat (first | rfl | apply isSome_ite_some)
    exact Option.isSome_iff_exists.mp hsome

/-- A stream of fragments each empty or at least as long as a footer is
processed to the end, and the invariant holds afterwards. -/
theorem feed_inv (L : FooterLayout) (evs : List (Bool × List Byte)) :
    ∀ p : DepthPacketStreamParser, Inv p →
      (∀ e ∈ evs, e.2 = [] ∨ L.size ≤ e.2.length) →
      ∃ q log, feed L p evs = some (q, log) ∧ Inv q := by
  induction evs with
  | nil =>
    intro p hinv _
    exact ⟨p, [], rfl, hinv⟩
  | cons e es ih =>
    intro p hinv hall
    have hsome := onData_defined L p e.1 e.2 (hall e (List.mem_cons_self _ _))
    obtain ⟨s, hs⟩ := hsome
    obtain ⟨q, log, hfeed, hq⟩ := ih s.parser (inv_step L p e.1 e.2 s hinv hs)
      (fun x hx => hall x (List.mem_cons_of_mem _ hx))
    exact ⟨q, s.processed ++ log, by simp only [feed, hs, hfeed], hq⟩

theorem feed_inv_of_some (L : FooterLayout) (evs : List (Bool × List Byte)) :
    ∀ (p q : DepthPacketStreamParser) (log : List DepthPacket), Inv p →
      feed L p evs = some (q, log) → Inv q := by
  induction evs with
  | nil =>
    intro p q log hinv h
    simp only [feed, Option.some.injEq, Prod.mk.injEq] at h
    rw [← h.1]
    exact hinv
  | cons e es ih =>
    intro p q log hinv h
    simp only [feed] at h
    cases hs : onDataReceived L p e.1 e.2 with
    | none => simp [hs] at h
    | some s =>
      simp only [hs] at h
      cases hr : feed L s.parser es with
      | none => simp [hr] at h
      | some r2 =>
        simp only [hr, Option.some.injEq, Prod.mk.injEq] at h
        have := ih s.parser r2.1 r2.2 (inv_step L p e.1 e.2 s hinv hs) (by rw [hr])
        rw [← h.1]
        exact this

theorem reachable_inv (L : FooterLayout) (p : DepthPacketStreamParser) (h : Reachable L p) :
    Inv p := by
  obtain ⟨heap, evs, log, hfeed⟩ := h
  exact feed_inv_of_some L evs _ p log (inv_construct heap) hfeed

theorem reachable_construct (L : FooterLayout) (heap : Nat → Byte) :
    Reachable L (DepthPacketStreamParser.construct heap) :=
  ⟨heap, [], [], rfl⟩

theorem reachable_step (L : FooterLayout) (p : DepthPacketStreamParser) (r : Bool)
    (f : List Byte) (s : Step) (hp : Reachable L p) (h : onDataReceived L p r f = some s) :
    Reachable L s.parser := by
  obtain ⟨heap, evs, log, hfeed⟩ := hp
  exact ⟨heap, evs ++ [(r, f)], log ++ s.processed, feed_snoc_some L _ p evs log r f s hfeed h⟩

/-- The heap after a call: untouched, or the payload copied behind the fill
mark, which then fits the accumulator. -/
theorem step_heap (L : FooterLayout) (p : DepthPacketStreamParser) (r : Bool) (f : List Byte)
    (s : Step) (h : onDataReceived L p r f = some s) :
    s.parser.heap = p.heap
    ∨ (p.work_buffer_.length + payloadLength L f ≤ p.work_buffer_.capacity
        ∧ s.parser.heap
          = memcpy p.heap (p.work_buffer_.data + p.work_buffer_.length) f (payloadLength L f)) := by
  have hacc : isTerminator (footerOf L f) = true → AcceptCond L p f →
      p.work_buffer_.length + payloadLength L f ≤ p.work_buffer_.capacity
      ∧ memcpy p.heap (p.work_buffer_.data + p.work_buffer_.length) f (f.length - L.size)
        = memcpy p.heap (p.work_buffer_.data + p.work_buffer_.length) f (payloadLength L f) := by
    intro ht ha
    have hpl : payloadLength L f = f.length - L.size := by simp [payloadLength, ht]
    exact ⟨Nat.le_of_eq ha.1, by rw [hpl]⟩
  rcases onData_cases L p r f s h with ⟨-, rfl⟩ | ⟨-, -, hc⟩
  · exact Or.inl rfl
  rcases hc with ⟨-, rfl⟩ | ⟨hfit, -, rfl⟩ | ⟨hfit, -, -, rfl⟩ | ⟨ht, ha, -, rfl⟩
    | ⟨ht, ha, -, -, rfl⟩ | ⟨ht, ha, -, -, rfl⟩
  · exact Or.inl rfl
  · exact Or.inr ⟨hfit, rfl⟩
  · exact Or.inr ⟨hfit, rfl⟩
  · exact Or.inr (hacc ht ha)
  · exact Or.inr (hacc ht ha)
  · exact Or.inr (hacc ht ha)

/-- A call whose payload does not fit takes the drop path and leaves the heap
as it was. -/
theorem step_overflow (L : FooterLayout) (p : DepthPacketStreamParser) (r : Bool)
    (f : List Byte) (hlen : L.size ≤ f.length)
    (hov : p.work_buffer_.length + payloadLength L f > p.work_buffer_.capacity) :
    onDataReceived L p r f = some (drop_packet p p.buffer_.front (footerOf L f)) := by
  obtain ⟨s, hs⟩ := onData_defined L p r f (Or.inr hlen)
  rcases onData_cases L p r f s hs with ⟨hnil, -⟩ | ⟨-, -, hc⟩
  · have hpos := L.size_pos
    rw [hnil] at hlen
    simp at hlen
    omega
  rcases hc with ⟨-, rfl⟩ | ⟨hfit, -⟩ | ⟨hfit, -⟩ | ⟨-, ha, -⟩ | ⟨-, ha, -⟩ | ⟨-, ha, -⟩
  · exact hs
  · omega
  · omega
  · have := ha.1
    omega
  · have := ha.1
    omega
  · have := ha.1
    omega

/-- In a state satisfying the invariant the front and back regions start at
addresses 0 and 2984960, in one order or the other. -/
theorem inv_regions (p : DepthPacketStreamParser) (hinv : Inv p) :
    (p.buffer_.front.data = 0 ∧ p.buffer_.back.data = 2984960)
    ∨ (p.buffer_.front.data = 2984960 ∧ p.buffer_.back.data = 0) := by
  obtain ⟨hb0, hb1, -⟩ := hinv
  unfold DoubleBuffer.front DoubleBuffer.back
  cases p.buffer_.front_is_1 with
  | false => left; simp [hb0, hb1]
  | true => right; simp [hb0, hb1]

/-- The fragments without terminator of a sub-packet that fits are appended
without any packet being processed. -/
theorem feed_body (L : FooterLayout) (p : DepthPacketStreamParser) (r : Bool)
    (sp : SubPacket) (hbody : ∀ f ∈ sp.body, IsContinuation L f)
    (hfit : p.work_buffer_.length + (sp.body.map List.length).sum ≤ p.work_buffer_.capacity) :
    ∃ h : Nat → Byte,
      feed L p (sp.body.map (fun f => (r, f)))
        = some (beforeLast p h (sp.body.map List.length).sum, []) := by
  have hsum : ((sp.body.map (fun f => (r, f))).map (fun e => e.2.length)).sum
      = (sp.body.map List.length).sum := by
    rw [List.map_map]; rfl
  obtain ⟨h, hfeed, -⟩ := feed_continuations L (sp.body.map (fun f => (r, f))) p
    (by
      intro e he
      obtain ⟨f, hf, rfl⟩ := List.mem_map.mp he
      exact hbody f hf)
    (by rw [hsum]; exact hfit)
  rw [hsum] at hfeed
  exact ⟨h, hfeed⟩

/-- A parser with an empty accumulator that expects `(X, 0)` accepts a
full-size sub-packet `(X, 0)` and then expects `(X, 1)`. -/
theorem accept_first_subpacket (L : FooterLayout) (q : DepthPacketStreamParser) (r : Bool)
    (sp : SubPacket) (X : Nat) (hsp : sp.FullSize L X 0) (hseq : q.current_sequence_ = X)
    (hsub : q.current_subsequence_ = 0) (hlen : q.work_buffer_.length = 0)
    (hcap : q.work_buffer_.capacity = single_image) :
    ∃ q1 s2,
      feed L q (sp.body.map (fun f => (r, f))) = some (q1, [])
      ∧ onDataReceived L q1 r sp.last = some s2
      ∧ s2.path = Path.accepted ∧ s2.processed = []
      ∧ s2.parser.current_sequence_ = X ∧ s2.parser.current_subsequence_ = 1 := by
  obtain ⟨hbody, hterm, hpay, hs, hq⟩ := hsp
  unfold SubPacket.payloadLength at hpay
  obtain ⟨h, hfeed⟩ := feed_body L q r sp hbody (by omega)
  have hstep := onData_accept_mid L (beforeLast q h (sp.body.map List.length).sum) r sp.last
    hterm (by simp only [beforeLast]; omega)
    (fun _ => by rw [hs]; exact hseq.symm)
    (fun _ => hq)
    (by rw [hq]; exact hsub.symm)
    (by show q.current_subsequence_ < 9; omega)
  refine ⟨_, _, hfeed, hstep, rfl, rfl, hs, ?_⟩
  show q.current_subsequence_ + 1 = 1
  omega

theorem not_acceptCond_iff (L : FooterLayout) (p : DepthPacketStreamParser) (f : List Byte) :
    ¬ AcceptCond L p f ↔
      (p.work_buffer_.length + payloadLength L f ≠ p.work_buffer_.capacity
        ∨ (p.started_ = false ∧ (footerOf L f).subsequence ≠ 0)
        ∨ (p.started_ = true ∧ (footerOf L f).sequence ≠ p.current_sequence_)
        ∨ (footerOf L f).subsequence ≠ p.current_subsequence_) := by
  unfold AcceptCond
  constructor
  · intro h
    by_contra hcon
    simp only [not_or, not_and, not_not, ne_eq] at hcon
    exact h ⟨hcon.1, hcon.2.1, hcon.2.2.1, hcon.2.2.2⟩
  · rintro (h | ⟨h1, h2⟩ | ⟨h1, h2⟩ | h) hacc
    · exact h hacc.1
    · exact h2 (hacc.2.1 h1)
    · exact h2 (hacc.2.2.1 h1)
    · exact h hacc.2.2.2

/-- The drop of a complete sub-packet with a sub-sequence other than 0 by a
parser that has not started, field by field. -/
theorem presync_step (L : FooterLayout) (p : DepthPacketStreamParser) (r : Bool)
    (f : List Byte) (hst : p.started_ = false) (hterm : IsTerminating L f)
    (hfull : p.work_buffer_.length + (f.length - L.size) = p.work_buffer_.capacity)
    (hne : (footerOf L f).subsequence ≠ 0) :
    ∃ s, onDataReceived L p r f = some s
      ∧ s.path = Path.dropped ∧ s.processed = [] ∧ s.parser.started_ = false
      ∧ s.parser.current_sequence_ = ((footerOf L f).sequence + 1) % u32 :=
  ⟨_, onData_presync L p r f hterm hfull hst hne, rfl, rfl, hst, rfl⟩

/-! ## Whole sub-packets and the path of their terminating call -/

/-- A terminating fragment that fails one of the checks takes the drop path. -/
theorem step_not_accepted (L : FooterLayout) (p : DepthPacketStreamParser) (r : Bool)
    (f : List Byte) (hlen : L.size ≤ f.length) (hterm : isTerminator (footerOf L f) = true)
    (hna : ¬ AcceptCond L p f) :
    ∃ s, onDataReceived L p r f = some s
      ∧ s.path = Path.dropped ∧ s.processed = []
      ∧ s.parser.started_ = p.started_
      ∧ s.parser.work_buffer_.length = 0
      ∧ s.parser.work_buffer_.capacity = p.work_buffer_.capacity
      ∧ s.parser.current_sequence_ = ((footerOf L f).sequence + 1) % u32
      ∧ s.parser.current_subsequence_ = 0 := by
  obtain ⟨s, hs⟩ := onData_defined L p r f (Or.inr hlen)
  refine ⟨s, hs, ?_⟩
  have hpos := L.size_pos
  rcases onData_cases L p r f s hs with ⟨hnil, -⟩ | ⟨-, -, hc⟩
  · rw [hnil] at hlen
    simp at hlen
    omega
  rcases hc with ⟨-, rfl⟩ | ⟨-, ht, -⟩ | ⟨-, -, -, rfl⟩ | ⟨-, ha, -⟩ | ⟨-, ha, -⟩ | ⟨-, ha, -⟩
  · exact ⟨rfl, rfl, rfl, rfl, rfl, rfl, rfl⟩
  · rw [hterm] at ht
    cases ht
  · exact ⟨rfl, rfl, rfl, rfl, rfl, rfl, rfl⟩
  · exact absurd ha hna
  · exact absurd ha hna
  · exact absurd ha hna

theorem feedSubPackets_cons_some (L : FooterLayout) (r : Bool)
    (p q0 q : DepthPacketStreamParser) (sp : SubPacket) (sps : List SubPacket)
    (lg : List DepthPacket) (s : Step) (ps : List Path)
    (h1 : feed L p (sp.body.map (fun f => (r, f))) = some (q0, lg))
    (h2 : onDataReceived L q0 r sp.last = some s)
    (h3 : feedSubPackets L r s.parser sps = some (q, ps)) :
    feedSubPackets L r p (sp :: sps) = some (q, s.path :: ps) := by
  simp only [feedSubPackets, h1, h2, h3]

theorem feedSubPackets_append_some (L : FooterLayout) (r : Bool) (xs ys : List SubPacket) :
    ∀ (p q q2 : DepthPacketStreamParser) (ps ps2 : List Path),
      feedSubPackets L r p xs = some (q, ps) → feedSubPackets L r q ys = some (q2, ps2) →
      feedSubPackets L r p (xs ++ ys) = some (q2, ps ++ ps2) := by
  induction xs with
  | nil =>
    intro p q q2 ps ps2 h1 h2
    simp only [feedSubPackets, Option.some.injEq, Prod.mk.injEq] at h1
    rw [h1.1, ← h1.2]
    exact h2
  | cons x xs ih =>
    intro p q q2 ps ps2 h1 h2
    simp only [feedSubPackets] at h1
    cases hb : feed L p (x.body.map (fun f => (r, f))) with
    | none => simp [hb] at h1
    | some q0 =>
      simp only [hb] at h1
      cases hs : onDataReceived L q0.1 r x.last with
      | none => simp [hs] at h1
      | some s =>
        simp only [hs] at h1
        cases hr : feedSubPackets L r s.parser xs with
        | none => simp [hr] at h1
        | some r2 =>
          simp only [hr, Option.some.injEq, Prod.mk.injEq] at h1
          have h3 := ih s.parser r2.1 q2 r2.2 ps2 (by rw [hr]) (by rw [h1.1]; exact h2)
          simp only [List.cons_append, feedSubPackets, hb, hs, List.append_eq, h3, ← h1.2]

theorem fullSize_body_le (L : FooterLayout) (sp : SubPacket) (X i : Nat)
    (h : sp.FullSize L X i) : (sp.body.map List.length).sum ≤ single_image := by
  have hpay := h.2.2.1
  unfold SubPacket.payloadLength at hpay
  omega

/-- A sub-packet whose fragments without terminator fit, and whose terminating
fragment arrives with the wrong accumulated length or the wrong footer, is
dropped by a started parser, which then expects `(M + 1, 0)`. -/
theorem feedSub_drop (L : FooterLayout) (r : Bool) (p : DepthPacketStreamParser)
    (sp : SubPacket) (X i M : Nat) (hp : Expecting p X i)
    (hbody : ∀ f ∈ sp.body, IsContinuation L f)
    (hfit : (sp.body.map List.length).sum ≤ single_image)
    (hterm : IsTerminating L sp.last) (hM : (footerOf L sp.last).sequence = M)
    (hbad : sp.payloadLength L ≠ single_image ∨ M ≠ X
      ∨ (footerOf L sp.last).subsequence ≠ i) :
    ∃ q, feedSubPackets L r p [sp] = some (q, [Path.dropped])
      ∧ Expecting q ((M + 1) % u32) 0 := by
  obtain ⟨hst, hlen, hcap, hseq, hsub⟩ := hp
  obtain ⟨h, hfeed⟩ := feed_body L p r sp hbody (by omega)
  have hpl : payloadLength L sp.last = sp.last.length - L.size := by
    simp [payloadLength, hterm.2]
  have hna : ¬ AcceptCond L (beforeLast p h (sp.body.map List.length).sum) sp.last := by
    rintro ⟨h1, -, h3, h4⟩
    rw [hpl] at h1
    rcases hbad with hb | hb | hb
    · apply hb
      unfold SubPacket.payloadLength
      simp only [beforeLast] at h1
      omega
    · exact hb (by rw [← hM, ← hseq]; exact h3 hst)
    · exact hb (by rw [← hsub]; exact h4)
  obtain ⟨s, hs, hpath, -, hst1, hlen1, hcap1, hseq1, hsub1⟩ :=
    step_not_accepted L (beforeLast p h (sp.body.map List.length).sum) r sp.last hterm.1
      hterm.2 hna
  refine ⟨s.parser, ?_, hst1.trans hst, hlen1, hcap1.trans hcap, by rw [hseq1, hM], hsub1⟩
  rw [feedSubPackets_cons_some L r p _ s.parser sp [] [] s [] hfeed hs rfl, hpath]

/-- Full-size sub-packets `(N, i)` with `i > 0` fed to a started parser that
expects `(N + 1, 0)` are all dropped, and the parser goes on expecting
`(N + 1, 0)`. -/
theorem feedSubs_dropped (L : FooterLayout) (r : Bool) (sp : Nat → SubPacket) (N j : Nat)
    (hsp : ∀ m, j < m → m < 10 → (sp m).FullSize L N m) (k : Nat) :
    ∀ (i : Nat) (p : DepthPacketStreamParser), j < i → i + k ≤ 10 →
      Expecting p ((N + 1) % u32) 0 →
      ∃ q, feedSubPackets L r p (subPacketList sp i k) = some (q, List.replicate k Path.dropped)
        ∧ Expecting q ((N + 1) % u32) 0 := by
  induction k with
  | zero =>
    intro i p _ _ hp
    exact ⟨p, rfl, hp⟩
  | succ k ih =>
    intro i p hji hik hp
    obtain ⟨hbody, hterm, hpay, hs, hq⟩ := hsp i hji (by omega)
    obtain ⟨q1, hf1, hq1⟩ := feedSub_drop L r p (sp i) ((N + 1) % u32) 0 N hp hbody
      (by unfold SubPacket.payloadLength at hpay; omega) hterm hs
      (Or.inr (Or.inr (by rw [hq]; omega)))
    obtain ⟨q2, hf2, hq2⟩ := ih (i + 1) q1 (by omega) (by omega) hq1
    refine ⟨q2, ?_, hq2⟩
    have := feedSubPackets_append_some L r [sp i] (subPacketList sp (i + 1) k) p q1 q2 _ _
      hf1 hf2
    simpa [subPacketList, List.replicate_succ] using this

/-- The expected full-size sub-packet is accepted by a started parser, which
then expects the next sub-packet of the frame or, after sub-packet 9, the
first one of the next frame. -/
theorem feedSub_accept (L : FooterLayout) (r : Bool) (p : DepthPacketStreamParser)
    (sp : SubPacket) (X i : Nat) (hp : Expecting p X i) (hi : i < 10)
    (hsp : sp.FullSize L X i) :
    ∃ q, feedSubPackets L r p [sp] = some (q, [Path.accepted])
      ∧ (i < 9 → Expecting q X (i + 1))
      ∧ (i = 9 → Expecting q ((X + 1) % u32) 0) := by
  obtain ⟨hst, hlen, hcap, hseq, hsub⟩ := hp
  obtain ⟨hbody, hterm, hpay, hs, hq⟩ := hsp
  unfold SubPacket.payloadLength at hpay
  obtain ⟨h, hfeed⟩ := feed_body L p r sp hbody (by omega)
  have hfull : (beforeLast p h (sp.body.map List.length).sum).work_buffer_.length
      + (sp.last.length - L.size)
      = (beforeLast p h (sp.body.map List.length).sum).work_buffer_.capacity := by
    simp only [beforeLast]
    omega
  have hfseq : (footerOf L sp.last).sequence
      = (beforeLast p h (sp.body.map List.length).sum).current_sequence_ := by
    rw [hs]
    exact hseq.symm
  have hfsub : (footerOf L sp.last).subsequence
      = (beforeLast p h (sp.body.map List.length).sum).current_subsequence_ := by
    rw [hq]
    exact hsub.symm
  by_cases h9 : i < 9
  · have hstep := onData_accept_mid L (beforeLast p h (sp.body.map List.length).sum) r sp.last
      hterm hfull (fun _ => hfseq) (fun hf => absurd (hst.symm.trans hf) (by decide)) hfsub
      (by show p.current_subsequence_ < 9; omega)
    refine ⟨_, feedSubPackets_cons_some L r p _ _ sp [] [] _ [] hfeed hstep rfl, ?_, ?_⟩
    · intro _
      exact ⟨rfl, rfl, hcap, hs, by show p.current_subsequence_ + 1 = i + 1; omega⟩
    · intro h
      omega
  · have hi9 : i = 9 := by omega
    have hlast : (beforeLast p h (sp.body.map List.length).sum).current_subsequence_ = 9 := by
      show p.current_subsequence_ = 9
      omega
    cases r with
    | true =>
      have hstep := onData_accept_last L (beforeLast p h (sp.body.map List.length).sum) sp.last
        hterm hfull hst hfseq hfsub hlast
      refine ⟨_, feedSubPackets_cons_some L true p _ _ sp [] [] _ [] hfeed hstep rfl, ?_, ?_⟩
      · intro h
        omega
      · intro _
        exact ⟨rfl, rfl, hcap, by show (p.current_sequence_ + 1) % u32 = _; rw [hseq], rfl⟩
    | false =>
      have hstep := onData_accept_last_busy L (beforeLast p h (sp.body.map List.length).sum)
        sp.last hterm hfull hst hfseq hfsub hlast
      refine ⟨_, feedSubPackets_cons_some L false p _ _ sp [] [] _ [] hfeed hstep rfl, ?_, ?_⟩
      · intro h
        omega
      · intro _
        exact ⟨rfl, rfl, hcap, by show (p.current_sequence_ + 1) % u32 = _; rw [hseq], rfl⟩

/-- The expected full-size sub-packets `(X, i), ..., (X, 9)` fed to a started
parser are all accepted, and the parser then expects `(X + 1, 0)`. -/
theorem feedSubs_accepted (L : FooterLayout) (r : Bool) (sp : Nat → SubPacket) (X : Nat)
    (hsp : ∀ m, m < 10 → (sp m).FullSize L X m) (k : Nat) :
    ∀ (i : Nat) (p : DepthPacketStreamParser), i + (k + 1) = 10 → Expecting p X i →
      ∃ q, feedSubPackets L r p (subPacketList sp i (k + 1))
          = some (q, List.replicate (k + 1) Path.accepted)
        ∧ Expecting q ((X + 1) % u32) 0 := by
  induction k with
  | zero =>
    intro i p hik hp
    obtain ⟨q, hf, -, hq⟩ := feedSub_accept L r p (sp i) X i hp (by omega) (hsp i (by omega))
    exact ⟨q, hf, hq (by omega)⟩
  | succ k ih =>
    intro i p hik hp
    obtain ⟨q1, hf1, hq1, -⟩ := feedSub_accept L r p (sp i) X i hp (by omega)
      (hsp i (by omega))
    obtain ⟨q2, hf2, hq2⟩ := ih (i + 1) q1 (by omega) (hq1 (by omega))
    refine ⟨q2, ?_, hq2⟩
    have := feedSubPackets_append_some L r [sp i] (subPacketList sp (i + 1) (k + 1)) p q1 q2
      _ _ hf1 hf2
    rw [subPacketList, List.replicate_succ]
    exact this

/-- Fragments without terminator never start or stop anything: whatever their
sizes, a started parser stays started, keeps its capacity and processes
nothing. -/
theorem feed_unterminated (L : FooterLayout) (evs : List (Bool × List Byte)) :
    ∀ p : DepthPacketStreamParser, p.started_ = true →
      p.work_buffer_.capacity = single_image →
      (∀ e ∈ evs, IsContinuation L e.2) →
      ∃ q, feed L p evs = some (q, []) ∧ q.started_ = true
        ∧ q.work_buffer_.capacity = single_image := by
  induction evs with
  | nil =>
    intro p hst hcap _
    exact ⟨p, rfl, hst, hcap⟩
  | cons e es ih =>
    intro p hst hcap hall
    have he := hall e (List.mem_cons_self _ _)
    have hes : ∀ x ∈ es, IsContinuation L x.2 := fun x hx => hall x (List.mem_cons_of_mem _ hx)
    have hstep : ∃ s, onDataReceived L p e.1 e.2 = some s ∧ s.processed = []
        ∧ s.parser.started_ = true ∧ s.parser.work_buffer_.capacity = single_image := by
      rcases he with hnil | ⟨hlen, hmag⟩
      · rw [hnil]
        exact ⟨_, onData_empty L p e.1, rfl, hst, hcap⟩
      · obtain ⟨s, hs⟩ := onData_defined L p e.1 e.2 (Or.inr hlen)
        refine ⟨s, hs, ?_⟩
        rcases onData_cases L p e.1 e.2 s hs with ⟨-, rfl⟩ | ⟨-, -, hc⟩
        · exact ⟨rfl, hst, hcap⟩
        rcases hc with ⟨-, rfl⟩ | ⟨-, -, rfl⟩ | ⟨-, ht, -⟩ | ⟨ht, -⟩ | ⟨ht, -⟩ | ⟨ht, -⟩
        · exact ⟨rfl, hst, hcap⟩
        · exact ⟨rfl, hst, hcap⟩
        · rw [hmag] at ht
          cases ht
        · rw [hmag] at ht
          cases ht
        · rw [hmag] at ht
          cases ht
        · rw [hmag] at ht
          cases ht
    obtain ⟨s, hs, hproc, hst1, hcap1⟩ := hstep
    obtain ⟨q, hfeed, hq1, hq2⟩ := ih s.parser hst1 hcap1 hes
    refine ⟨q, ?_, hq1, hq2⟩
    simp only [feed, hs, hfeed, hproc, List.append_nil]

/-- A sub-packet whose terminator arrives with an accumulated length other
than the capacity, whatever its fragments without terminator did before, is
dropped at its terminating call by a started parser, which then expects
`(M + 1, 0)` with an empty accumulator. -/
theorem feedSub_drop_wrong_length (L : FooterLayout) (r : Bool) (p : DepthPacketStreamParser)
    (sp : SubPacket) (M : Nat) (hst : p.started_ = true)
    (hcap : p.work_buffer_.capacity = single_image)
    (hbody : ∀ f ∈ sp.body, IsContinuation L f)
    (hterm : IsTerminating L sp.last) (hM : (footerOf L sp.last).sequence = M)
    (hbad : ∀ q0 lg, feed L p (sp.body.map (fun f => (r, f))) = some (q0, lg) →
      q0.work_buffer_.length + (sp.last.length - L.size) ≠ q0.work_buffer_.capacity) :
    ∃ q, feedSubPackets L r p [sp] = some (q, [Path.dropped])
      ∧ Expecting q ((M + 1) % u32) 0 := by
  obtain ⟨q0, hfeed, hst0, hcap0⟩ := feed_unterminated L (sp.body.map (fun f => (r, f))) p hst
    hcap (by
      intro e he
      obtain ⟨f, hf, rfl⟩ := List.mem_map.mp he
      exact hbody f hf)
  have hpl : payloadLength L sp.last = sp.last.length - L.size := by
    simp [payloadLength, hterm.2]
  have hna : ¬ AcceptCond L q0 sp.last := by
    rintro ⟨h1, -⟩
    rw [hpl] at h1
    exact hbad q0 [] hfeed h1
  obtain ⟨s, hs, hpath, -, hst1, hlen1, hcap1, hseq1, hsub1⟩ :=
    step_not_accepted L q0 r sp.last hterm.1 hterm.2 hna
  refine ⟨s.parser, ?_, hst1.trans hst0, hlen1, hcap1.trans hcap0, by rw [hseq1, hM], hsub1⟩
  rw [feedSubPackets_cons_some L r p q0 s.parser sp [] [] s [] hfeed hs rfl, hpath]

/-- After a single fragment that overflows the accumulator, the accumulator is
empty and has its old capacity. -/
theorem feed_overflow_single (L : FooterLayout) (r : Bool) (p : DepthPacketStreamParser)
    (f : List Byte) (hlen : L.size ≤ f.length) (hmag : isTerminator (footerOf L f) = false)
    (hov : p.work_buffer_.length + f.length > p.work_buffer_.capacity) :
    ∀ q0 lg, feed L p [(r, f)] = some (q0, lg) →
      q0.work_buffer_.length = 0 ∧ q0.work_buffer_.capacity = p.work_buffer_.capacity := by
  intro q0 lg h
  have hpl : payloadLength L f = f.length := by simp [payloadLength, hmag]
  have hstep := step_overflow L p r f hlen (by rw [hpl]; exact hov)
  simp only [feed, hstep, Option.some.injEq, Prod.mk.injEq] at h
  rw [← h.1]
  exact ⟨rfl, rfl⟩

/-! ## Traces of calls -/

theorem carriesTerminator_nil (L : FooterLayout) : carriesTerminator L [] = false := by
  have hpos := L.size_pos
  have : decide (L.size ≤ ([] : List Byte).length) = false := by
    apply decide_eq_false
    simp only [List.length_nil]
    omega
  unfold carriesTerminator
  rw [this]
  rfl

theorem carriesTerminator_of_not_magic (L : FooterLayout) (f : List Byte)
    (h : isTerminator (footerOf L f) = false) : carriesTerminator L f = false := by
  simp [carriesTerminator, h]

theorem carriesTerminator_of_magic (L : FooterLayout) (f : List Byte) (hlen : L.size ≤ f.length)
    (h : isTerminator (footerOf L f) = true) : carriesTerminator L f = true := by
  simp [carriesTerminator, h, hlen]

theorem terminatorFooters_snoc_false (L : FooterLayout) (tr : List Call) (x : Call)
    (h : carriesTerminator L x.fragment = false) :
    terminatorFooters L (tr ++ [x]) = terminatorFooters L tr := by
  simp [terminatorFooters, List.filter_append, h]

theorem terminatorFooters_snoc_true (L : FooterLayout) (tr : List Call) (x : Call)
    (h : carriesTerminator L x.fragment = true) :
    terminatorFooters L (tr ++ [x]) = terminatorFooters L tr
      ++ [((footerOf L x.fragment).sequence, (footerOf L x.fragment).subsequence)] := by
  simp [terminatorFooters, List.filter_append, h]

/-- A run goes on through a call without terminator that is not dropped. -/
theorem run_snoc_plain (L : FooterLayout) (suf : List Call) (X c : Nat) (x : Call)
    (hrun : Run L suf X c) (hterm : carriesTerminator L x.fragment = false)
    (hpath : x.step.path ≠ Path.dropped) : Run L (suf ++ [x]) X c := by
  obtain ⟨h1, h2, h3, c0, rest, h4, h5⟩ := hrun
  refine ⟨?_, ?_, ?_, c0, rest ++ [x], by rw [h4]; rfl, h5⟩
  · intro y hy
    rcases List.mem_append.mp hy with hy | hy
    · exact h1 y hy
    · rw [List.mem_singleton.mp hy]
      exact hpath
  · intro y hy hty
    rcases List.mem_append.mp hy with hy | hy
    · exact h2 y hy hty
    · rw [List.mem_singleton.mp hy] at hty
      rw [hterm] at hty
      cases hty
  · rw [terminatorFooters_snoc_false L suf x hterm]
    exact h3

/-- A run grows by one when the next expected sub-packet is accepted. -/
theorem run_snoc_accepted (L : FooterLayout) (suf : List Call) (X c : Nat) (x : Call)
    (hrun : Run L suf X c) (hterm : carriesTerminator L x.fragment = true)
    (hpath : x.step.path = Path.accepted)
    (hseq : (footerOf L x.fragment).sequence = X)
    (hsub : (footerOf L x.fragment).subsequence = c) : Run L (suf ++ [x]) X (c + 1) := by
  obtain ⟨h1, h2, h3, c0, rest, h4, h5⟩ := hrun
  refine ⟨?_, ?_, ?_, c0, rest ++ [x], by rw [h4]; rfl, h5⟩
  · intro y hy
    rcases List.mem_append.mp hy with hy | hy
    · exact h1 y hy
    · rw [List.mem_singleton.mp hy, hpath]
      exact fun h => nomatch h
  · intro y hy _
    rcases List.mem_append.mp hy with hy' | hy'
    · exact h2 y hy' (by assumption)
    · rw [List.mem_singleton.mp hy']
      exact hpath
  · rw [terminatorFooters_snoc_true L suf x hterm, h3, hseq, hsub, List.range_succ,
      List.map_append]
    rfl

/-- A run starts when sub-packet 0 is accepted. -/
theorem run_single (L : FooterLayout) (X : Nat) (x : Call)
    (hterm : carriesTerminator L x.fragment = true) (hpath : x.step.path = Path.accepted)
    (hseq : (footerOf L x.fragment).sequence = X)
    (hsub : (footerOf L x.fragment).subsequence = 0) : Run L [x] X 1 := by
  refine ⟨?_, ?_, ?_, x, [], rfl, hterm⟩
  · intro y hy
    rw [List.mem_singleton.mp hy, hpath]
    exact fun h => nomatch h
  · intro y hy _
    rw [List.mem_singleton.mp hy]
    exact hpath
  · have := terminatorFooters_snoc_true L [] x hterm
    rw [List.nil_append] at this
    rw [this, hseq, hsub]
    rfl

/-- A started parser in a state satisfying the invariant: `started_` false
is only possible with expected sub-sequence 0. -/
theorem inv_started_of_sub (p : DepthPacketStreamParser) (hinv : Inv p)
    (hc : p.current_subsequence_ ≠ 0) : p.started_ = true := by
  cases hst : p.started_ with
  | true => rfl
  | false => exact absurd (hinv.2.2.2.2.2.2.1 hst) hc

/-- The run at the end of the trace after an accepted terminating call. -/
theorem run_after_accept (L : FooterLayout) (p : DepthPacketStreamParser) (f : List Byte)
    (tr : List Call) (x : Call) (hx : x.fragment = f) (hpath : x.step.path = Path.accepted)
    (hinv : Inv p) (hmid : MidFrame L tr p) (hlen : L.size ≤ f.length)
    (hterm : isTerminator (footerOf L f) = true) (ha : AcceptCond L p f) :
    ∃ pre suf, tr ++ [x] = pre ++ suf
      ∧ Run L suf (footerOf L f).sequence (p.current_subsequence_ + 1) := by
  have hct : carriesTerminator L x.fragment = true := by
    rw [hx]
    exact carriesTerminator_of_magic L f hlen hterm
  by_cases hc0 : p.current_subsequence_ = 0
  · refine ⟨tr, [x], rfl, ?_⟩
    rw [hc0]
    exact run_single L _ x hct hpath (by rw [hx]) (by rw [hx, ha.2.2.2, hc0])
  · have hst := inv_started_of_sub p hinv hc0
    obtain ⟨pre, suf, heq, hrun⟩ := hmid hc0
    refine ⟨pre, suf ++ [x], by rw [heq, List.append_assoc], ?_⟩
    rw [ha.2.2.1 hst]
    exact run_snoc_accepted L suf _ _ x hrun hct hpath (by rw [hx]; exact ha.2.2.1 hst)
      (by rw [hx]; exact ha.2.2.2)

/-- One call extends the trace: the parser stays described by it, at most one
packet is processed, and a processed packet ends a run of ten accepted
sub-packets of its sequence. -/
theorem trace_step (L : FooterLayout) (p : DepthPacketStreamParser) (r : Bool) (f : List Byte)
    (s : Step) (tr : List Call) (hinv : Inv p) (hmid : MidFrame L tr p)
    (h : onDataReceived L p r f = some s) :
    MidFrame L (tr ++ [{ fragment := f, step := s }]) s.parser
    ∧ s.processed.length ≤ 1
    ∧ ∀ pkt ∈ s.processed, carriesTerminator L f = true ∧ s.path = Path.accepted
        ∧ ∃ pre suf,
          tr ++ [{ fragment := f, step := s }] = pre ++ suf ∧ Run L suf pkt.sequence 10 := by
  have hsublt : p.current_subsequence_ < 10 := hinv.2.2.2.2.1
  have hnext : nextSub p = (p.current_subsequence_ + 1) % 10 := by
    unfold nextSub
    simp only [u32]
    omega
  rcases onData_cases L p r f s h with ⟨rfl, rfl⟩ | ⟨-, hlen, hc⟩
  · refine ⟨?_, Nat.zero_le _, fun pkt hp => nomatch hp⟩
    intro hc
    obtain ⟨pre, suf, heq, hrun⟩ := hmid hc
    exact ⟨pre, suf ++ [_], by rw [heq, List.append_assoc],
      run_snoc_plain L suf _ _ _ hrun (carriesTerminator_nil L)
        (show Path.ignored ≠ Path.dropped by decide)⟩
  rcases hc with ⟨-, rfl⟩ | ⟨-, hterm, rfl⟩ | ⟨-, -, -, rfl⟩ | ⟨hterm, ha, hn, rfl⟩
    | ⟨hterm, ha, hn, -, rfl⟩ | ⟨hterm, ha, hn, -, rfl⟩
  · exact ⟨fun hc => absurd rfl hc, Nat.zero_le _, fun pkt hp => nomatch hp⟩
  · refine ⟨?_, Nat.zero_le _, fun pkt hp => nomatch hp⟩
    intro hc
    obtain ⟨pre, suf, heq, hrun⟩ := hmid hc
    exact ⟨pre, suf ++ [_], by rw [heq, List.append_assoc],
      run_snoc_plain L suf _ _ _ hrun (carriesTerminator_of_not_magic L f hterm)
        (show Path.continued ≠ Path.dropped by decide)⟩
  · exact ⟨fun hc => absurd rfl hc, Nat.zero_le _, fun pkt hp => nomatch hp⟩
  · refine ⟨?_, Nat.zero_le _, fun pkt hp => nomatch hp⟩
    intro _
    have hn1 : nextSub p = p.current_subsequence_ + 1 := by
      rw [hnext] at hn ⊢
      omega
    obtain ⟨pre, suf, heq, hrun⟩ := run_after_accept L p f tr
      { fragment := f
        step := { parser := accepted L p f (nextSub p), processed := [], path := Path.accepted } }
      rfl rfl hinv hmid hlen hterm ha
    refine ⟨pre, suf, heq, ?_⟩
    show Run L suf (footerOf L f).sequence (nextSub p)
    rw [hn1]
    exact hrun
  · exact ⟨fun hc => absurd rfl hc, Nat.zero_le _, fun pkt hp => nomatch hp⟩
  · refine ⟨fun hc => absurd rfl hc, Nat.le_refl _, ?_⟩
    intro pkt hp
    have hc9 : p.current_subsequence_ + 1 = 10 := by
      rw [hnext] at hn
      omega
    obtain ⟨pre, suf, heq, hrun⟩ := run_after_accept L p f tr
      { fragment := f
        step :=
          { parser :=
              { accepted L p f 0 with
                current_sequence_ := ((footerOf L f).sequence + 1) % u32
                buffer_ := p.buffer_.swap }
            processed :=
              [{ sequence := (footerOf L f).sequence
                 buffer := p.buffer_.front.data
                 buffer_length := p.buffer_.front.capacity }]
            path := Path.accepted } }
      rfl rfl hinv hmid hlen hterm ha
    refine ⟨carriesTerminator_of_magic L f hlen hterm, rfl, pre, suf, heq, ?_⟩
    rw [List.mem_singleton.mp hp, ← hc9]
    exact hrun

/-- Every stream of fragments, each empty or at least as long as a footer, has
a trace; in it every call processes at most one packet, and a processed packet
ends a run of ten accepted sub-packets of its sequence. -/
theorem calls_runs (L : FooterLayout) (evs : List (Bool × List Byte)) :
    ∀ (p : DepthPacketStreamParser) (tr : List Call), Inv p → MidFrame L tr p →
      (∀ e ∈ evs, e.2 = [] ∨ L.size ≤ e.2.length) →
      ∃ cs, calls L p evs = some cs
        ∧ ∀ a c b, cs = a ++ c :: b →
            c.step.processed.length ≤ 1
            ∧ ∀ pkt ∈ c.step.processed,
                carriesTerminator L c.fragment = true ∧ c.step.path = Path.accepted
                ∧ ∃ pre suf, tr ++ (a ++ [c]) = pre ++ suf ∧ Run L suf pkt.sequence 10 := by
  induction evs with
  | nil =>
    intro p tr _ _ _
    refine ⟨[], rfl, ?_⟩
    intro a c b h
    cases a <;> cases h
  | cons e es ih =>
    intro p tr hinv hmid hall
    obtain ⟨s, hs⟩ := onData_defined L p e.1 e.2 (hall e (List.mem_cons_self _ _))
    obtain ⟨hmid2, hle, hproc⟩ := trace_step L p e.1 e.2 s tr hinv hmid hs
    obtain ⟨cs, hcs, hgood⟩ := ih s.parser (tr ++ [{ fragment := e.2, step := s }])
      (inv_step L p e.1 e.2 s hinv hs) hmid2 (fun x hx => hall x (List.mem_cons_of_mem _ hx))
    refine ⟨{ fragment := e.2, step := s } :: cs, by simp only [calls, hs, hcs], ?_⟩
    intro a c b h
    cases a with
    | nil =>
      simp only [List.nil_append, List.cons.injEq] at h
      rw [← h.1]
      exact ⟨hle, hproc⟩
    | cons x a2 =>
      simp only [List.cons_append, List.cons.injEq] at h
      obtain ⟨hl, hp⟩ := hgood a2 c b h.2
      refine ⟨hl, ?_⟩
      intro pkt hpkt
      obtain ⟨hct, hpa, pre, suf, heq, hrun⟩ := hp pkt hpkt
      refine ⟨hct, hpa, pre, suf, ?_, hrun⟩
      rw [← heq, ← h.1]
      simp

theorem subPacket_events_sized (L : FooterLayout) (r : Bool) (sp : SubPacket) (X i : Nat)
    (h : sp.FullSize L X i) : ∀ e ∈ sp.events r, e.2 = [] ∨ L.size ≤ e.2.length := by
  intro e he
  unfold SubPacket.events at he
  rcases List.mem_append.mp he with he | he
  · obtain ⟨f, hf, rfl⟩ := List.mem_map.mp he
    rcases h.1 f hf with hnil | ⟨hlen, -⟩
    · exact Or.inl hnil
    · exact Or.inr hlen
  · rw [List.mem_singleton.mp he]
    exact Or.inr h.2.1.1

theorem subPacketsFrom_sized (L : FooterLayout) (r : Bool) (sp : Nat → SubPacket) (X : Nat)
    (k : Nat) :
    ∀ j, (∀ i, j ≤ i → i < j + k → (sp i).FullSize L X i) →
      ∀ e ∈ subPacketsFrom r sp j k, e.2 = [] ∨ L.size ≤ e.2.length := by
  induction k with
  | zero =>
    intro j _ e he
    cases he
  | succ k ih =>
    intro j hsp e he
    rw [subPacketsFrom] at he
    rcases List.mem_append.mp he with he | he
    · exact subPacket_events_sized L r (sp j) X j (hsp j (Nat.le_refl _) (by omega)) e he
    · exact ih (j + 1) (fun i h1 h2 => hsp i (by omega) (by omega)) e he

theorem frameEvents_sized (L : FooterLayout) (r : Bool) (sp : Nat → SubPacket) (X : Nat)
    (hsp : ∀ i, i < 10 → (sp i).FullSize L X i) :
    ∀ e ∈ frameEvents r sp, e.2 = [] ∨ L.size ≤ e.2.length :=
  subPacketsFrom_sized L r sp X 10 0 (fun i _ h => hsp i (by omega))

/-! ## Facts about the example layout and streams -/

theorem footerBytes_length (a b : Nat) : (footerBytes a b).length = 152 := by
  simp [footerBytes, writeU32]

theorem readFooter_footerBytes (a b : Nat) (ha : a < u32) (hb : b < u32) :
    readFooter (footerBytes a b)
      = { magic0 := 0, magic1 := 9, sequence := a, subsequence := b } := by
  unfold u32 at ha hb
  have h0 : readU32 (footerBytes a b) 0 = 0 := by
    simp [readU32, footerBytes, writeU32, Fin.ofNat]
  have h1 : readU32 (footerBytes a b) 4 = 9 := by
    simp [readU32, footerBytes, writeU32, Fin.ofNat]
    rfl
  have h2 : readU32 (footerBytes a b) 12 = a := by
    simp [readU32, footerBytes, writeU32, Fin.ofNat]
    omega
  have h3 : readU32 (footerBytes a b) 16 = b := by
    simp [readU32, footerBytes, writeU32, Fin.ofNat]
    omega
  simp only [readFooter, h0, h1, h2, h3]

theorem footerOf_example (pl : List Byte) (a b : Nat) (ha : a < u32) (hb : b < u32) :
    footerOf kinectLayout (pl ++ footerBytes a b)
      = { magic0 := 0, magic1 := 9, sequence := a, subsequence := b } := by
  rw [footerOf_append kinectLayout pl _ (footerBytes_length a b)]
  exact readFooter_footerBytes a b ha hb

theorem getD_replicate_lt (n k : Nat) (b : Byte) (h : k < n) :
    (List.replicate n b).getD k 0 = b := by
  rw [List.getD_eq_getElem?_getD, List.getElem?_replicate, if_pos h]
  rfl

theorem replicate_isContinuation (n : Nat) (b : Byte) (h : 152 ≤ n) :
    IsContinuation kinectLayout (List.replicate n b) := by
  right
  refine ⟨by simpa [kinectLayout] using h, ?_⟩
  have hdrop : (List.replicate n b).drop (n - 152) = List.replicate 152 b := by
    rw [List.drop_replicate]
    have : n - (n - 152) = 152 := by omega
    rw [this]
  have hnot : ¬ (readU32 (List.replicate 152 b) 0 = 0 ∧ readU32 (List.replicate 152 b) 4 = 9) := by
    unfold readU32
    rw [getD_replicate_lt _ _ _ (by omega), getD_replicate_lt _ _ _ (by omega),
      getD_replicate_lt _ _ _ (by omega), getD_replicate_lt _ _ _ (by omega),
      getD_replicate_lt _ _ _ (by omega), getD_replicate_lt _ _ _ (by omega),
      getD_replicate_lt _ _ _ (by omega), getD_replicate_lt _ _ _ (by omega)]
    omega
  unfold footerOf
  rw [List.length_replicate]
  show isTerminator (readFooter ((List.replicate n b).drop (n - 152))) = false
  rw [hdrop]
  simpa [isTerminator, readFooter] using hnot

theorem exampleSubPacket_fullSize (fill : Byte) (seq sub : Nat) (hs : seq < u32)
    (hq : sub < u32) : (exampleSubPacket fill seq sub).FullSize kinectLayout seq sub := by
  have hf := footerOf_example (List.replicate 98496 fill) seq sub hs hq
  refine ⟨?_, ⟨?_, ?_⟩, ?_, ?_, ?_⟩
  · intro f hf
    have : f = List.replicate 200000 fill := List.mem_singleton.mp hf
    rw [this]
    exact replicate_isContinuation 200000 fill (by omega)
  · show 152 ≤ (List.replicate 98496 fill ++ footerBytes seq sub).length
    rw [List.length_append, List.length_replicate, footerBytes_length]
    omega
  · show isTerminator (footerOf kinectLayout
      (List.replicate 98496 fill ++ footerBytes seq sub)) = true
    rw [hf]
    rfl
  · show ([List.replicate 200000 fill].map List.length).sum
      + ((List.replicate 98496 fill ++ footerBytes seq sub).length - 152) = single_image
    simp only [List.map_cons, List.map_nil, List.sum_cons, List.sum_nil, List.length_append,
      List.length_replicate, footerBytes_length, single_image_eq]
    decide
  · show (footerOf kinectLayout
      (List.replicate 98496 fill ++ footerBytes seq sub)).sequence = seq
    rw [hf]
  · show (footerOf kinectLayout
      (List.replicate 98496 fill ++ footerBytes seq sub)).subsequence = sub
    rw [hf]

theorem exampleFrame_fullSize (fill : Byte) (seq : Nat) (hs : seq < u32) :
    ∀ j, j < 10 → (exampleFrame fill seq j).FullSize kinectLayout seq j := by
  intro j hj
  exact exampleSubPacket_fullSize fill seq j hs (by unfold u32; omega)

theorem exampleFragment_length (n : Nat) (fill : Byte) (seq sub : Nat) :
    (exampleFragment n fill seq sub).length = n + 152 := by
  unfold exampleFragment
  rw [List.length_append, List.length_replicate, footerBytes_length]

theorem exampleFragment_footer (n : Nat) (fill : Byte) (seq sub : Nat) (hs : seq < u32)
    (hq : sub < u32) :
    footerOf kinectLayout (exampleFragment n fill seq sub)
      = { magic0 := 0, magic1 := 9, sequence := seq, subsequence := sub } :=
  footerOf_example _ seq sub hs hq

theorem exampleFragment_terminating (n : Nat) (fill : Byte) (seq sub : Nat) (hs : seq < u32)
    (hq : sub < u32) : IsTerminating kinectLayout (exampleFragment n fill seq sub) := by
  constructor
  · show 152 ≤ (exampleFragment n fill seq sub).length
    rw [exampleFragment_length]
    omega
  · rw [exampleFragment_footer n fill seq sub hs hq]
    rfl

theorem exampleFragment_full (p : DepthPacketStreamParser) (fill : Byte) (seq sub : Nat)
    (hlen : p.work_buffer_.length = 0) (hcap : p.work_buffer_.capacity = single_image) :
    p.work_buffer_.length + ((exampleFragment 298496 fill seq sub).length - kinectLayout.size)
      = p.work_buffer_.capacity := by
  rw [hlen, hcap, exampleFragment_length, single_image_eq]
  rfl

theorem reachable_accept_mid (L : FooterLayout) (p : DepthPacketStreamParser) (r : Bool)
    (f : List Byte) (hp : Reachable L p) (hterm : IsTerminating L f)
    (hfull : p.work_buffer_.length + (f.length - L.size) = p.work_buffer_.capacity)
    (hseq : p.started_ = true → (footerOf L f).sequence = p.current_sequence_)
    (hsync : p.started_ = false → (footerOf L f).subsequence = 0)
    (hsub : (footerOf L f).subsequence = p.current_subsequence_)
    (hmid : p.current_subsequence_ < 9) (k : Nat) (hk : k = p.current_subsequence_ + 1) :
    Reachable L (accepted L p f k) := by
  rw [hk]
  exact reachable_step L p r f _ hp (onData_accept_mid L p r f hterm hfull hseq hsync hsub hmid)

theorem exampleStarted_reachable : Reachable kinectLayout exampleStarted := by
  have hfoot := exampleFragment_footer 298496 1 0 0 (by decide) (by decide)
  unfold exampleStarted
  exact reachable_accept_mid kinectLayout (DepthPacketStreamParser.construct (fun _ => 0)) true
    (exampleFragment 298496 1 0 0) (reachable_construct kinectLayout (fun _ => 0))
    (exampleFragment_terminating 298496 1 0 0 (by decide) (by decide))
    (exampleFragment_full _ 1 0 0 rfl rfl)
    (fun h => by cases h)
    (fun _ => by rw [hfoot])
    (by rw [hfoot]; rfl)
    (show (0 : Nat) < 9 by decide) 1 rfl

/-- A call never resets `started_`. -/
theorem step_started (L : FooterLayout) (p : DepthPacketStreamParser) (r : Bool) (f : List Byte)
    (s : Step) (h : onDataReceived L p r f = some s) (hst : p.started_ = true) :
    s.parser.started_ = true := by
  rcases onData_cases L p r f s h with ⟨-, rfl⟩ | ⟨-, -, hc⟩
  · exact hst
  rcases hc with ⟨-, rfl⟩ | ⟨-, -, rfl⟩ | ⟨-, -, -, rfl⟩ | ⟨-, -, -, rfl⟩
    | ⟨-, -, -, -, rfl⟩ | ⟨-, -, -, -, rfl⟩
  · exact hst
  · exact hst
  · exact hst
  · rfl
  · rfl
  · rfl

theorem feed_started (L : FooterLayout) (evs : List (Bool × List Byte)) :
    ∀ (p q : DepthPacketStreamParser) (log : List DepthPacket),
      feed L p evs = some (q, log) → p.started_ = true → q.started_ = true := by
  induction evs with
  | nil =>
    intro p q log h hst
    simp only [feed, Option.some.injEq, Prod.mk.injEq] at h
    rw [← h.1]
    exact hst
  | cons e es ih =>
    intro p q log h hst
    simp only [feed] at h
    cases hs : onDataReceived L p e.1 e.2 with
    | none => simp [hs] at h
    | some s =>
      simp only [hs] at h
      cases hr : feed L s.parser es with
      | none => simp [hr] at h
      | some r2 =>
        simp only [hr, Option.some.injEq, Prod.mk.injEq] at h
        have := ih s.parser r2.1 r2.2 (by rw [hr]) (step_started L p e.1 e.2 s hs hst)
        rw [← h.1]
        exact this

theorem footerOf_replicate (n : Nat) (b : Byte) (h : 152 ≤ n) :
    footerOf kinectLayout (List.replicate n b) = readFooter (List.replicate 152 b) := by
  have hdrop : (List.replicate n b).drop (n - 152) = List.replicate 152 b := by
    rw [List.drop_replicate]
    have : n - (n - 152) = 152 := by omega
    rw [this]
  unfold footerOf
  rw [List.length_replicate]
  show readFooter ((List.replicate n b).drop (n - 152)) = _
  rw [hdrop]

theorem exampleShort_corrupted (seq sub : Nat) (hs : seq < u32) (hq : sub < u32) :
    (∀ f ∈ (exampleShort seq sub).body, IsContinuation kinectLayout f)
    ∧ ((exampleShort seq sub).body.map List.length).sum ≤ single_image
    ∧ IsTerminating kinectLayout (exampleShort seq sub).last
    ∧ (footerOf kinectLayout (exampleShort seq sub).last).sequence = seq
    ∧ (footerOf kinectLayout (exampleShort seq sub).last).subsequence = sub
    ∧ (exampleShort seq sub).payloadLength kinectLayout ≠ single_image := by
  have hlast : (exampleShort seq sub).last = exampleFragment 1000 1 seq sub := rfl
  have hbody : (exampleShort seq sub).body = [] := rfl
  have hfoot := exampleFragment_footer 1000 1 seq sub hs hq
  refine ⟨?_, ?_, ?_, ?_, ?_, ?_⟩
  · intro f hf
    rw [hbody] at hf
    cases hf
  · rw [hbody]
    exact Nat.zero_le _
  · rw [hlast]
    exact exampleFragment_terminating 1000 1 seq sub hs hq
  · rw [hlast, hfoot]
  · rw [hlast, hfoot]
  · unfold SubPacket.payloadLength
    rw [hlast, hbody, exampleFragment_length, single_image_eq]
    decide

theorem exampleSynced_expecting (seq sub : Nat) : Expecting (exampleSynced seq sub) seq sub :=
  ⟨rfl, rfl, rfl, rfl, rfl⟩

theorem exampleOversize_corrupted (seq sub : Nat) (hs : seq < u32) (hq : sub < u32)
    (p : DepthPacketStreamParser) (hlen : p.work_buffer_.length = 0)
    (hcap : p.work_buffer_.capacity = single_image) :
    (∀ f ∈ (exampleOversize seq sub).body, IsContinuation kinectLayout f)
    ∧ IsTerminating kinectLayout (exampleOversize seq sub).last
    ∧ (footerOf kinectLayout (exampleOversize seq sub).last).sequence = seq
    ∧ (footerOf kinectLayout (exampleOversize seq sub).last).subsequence = sub
    ∧ (∀ q0 lg, feed kinectLayout p ((exampleOversize seq sub).body.map (fun f => (true, f)))
          = some (q0, lg) →
        q0.work_buffer_.length + ((exampleOversize seq sub).last.length - kinectLayout.size)
          ≠ q0.work_buffer_.capacity) := by
  have hlast : (exampleOversize seq sub).last = exampleFragment 1000 1 seq sub := rfl
  have hbody : (exampleOversize seq sub).body = [List.replicate 300000 1] := rfl
  have hfoot := exampleFragment_footer 1000 1 seq sub hs hq
  have hl : (List.replicate 300000 (1 : Byte)).length = 300000 := List.length_replicate _ _
  have hcont := replicate_isContinuation 300000 (1 : Byte) (by decide)
  refine ⟨?_, ?_, ?_, ?_, ?_⟩
  · intro f hf
    rw [hbody] at hf
    rw [List.mem_singleton.mp hf]
    exact hcont
  · rw [hlast]
    exact exampleFragment_terminating 1000 1 seq sub hs hq
  · rw [hlast, hfoot]
  · rw [hlast, hfoot]
  · intro q0 lg h
    rw [hbody, List.map_cons, List.map_nil] at h
    rcases hcont with hnil | ⟨hsz, hmag⟩
    · have := congrArg List.length hnil
      rw [hl] at this
      cases this
    obtain ⟨h0, hc⟩ := feed_overflow_single kinectLayout true p (List.replicate 300000 1) hsz hmag
      (by rw [hl, hlen, hcap, single_image_eq]; decide) q0 lg h
    rw [h0, hc, hcap, hlast, exampleFragment_length, single_image_eq]
    decide

/-! ## Properties of the parser -/

/-- C1, round trip. Take a parser whose accumulator is empty, which expects
sub-packet 0 and either has not started or expects sequence `N` (the freshly
constructed parser is one), and a processor that is ready. Feeding the ten
full-size sub-packets `(N, 0), ..., (N, 9)` in order, each split in any number
of fragments without terminator followed by its terminating fragment, hands
exactly one packet to `process`, during the last call, with sequence `N` and
length `10 * 298496 = 2984960`. -/
theorem round_trip_one_frame (L : FooterLayout) (p : DepthPacketStreamParser) (N : Nat)
    (sp : Nat → SubPacket) (hsp : ∀ j, j < 10 → (sp j).FullSize L N j)
    (hcap : p.work_buffer_.capacity = single_image)
    (hfront : p.buffer_.front.capacity = single_image * 10)
    (hlen : p.work_buffer_.length = 0) (hsub : p.current_subsequence_ = 0)
    (hseq : p.started_ = true → p.current_sequence_ = N) :
    single_image = 298496 ∧
    ∃ q pkt q0,
      feed L p (frameEvents true sp) = some (q, [pkt])
      ∧ pkt.sequence = N ∧ pkt.buffer_length = 2984960
      ∧ feed L p (frameEvents true sp).dropLast = some (q0, []) := by
  obtain ⟨h, hfeed, ⟨q0, hq0⟩, -⟩ := feed_frame L p N sp hsp hcap hlen hsub hseq
  refine ⟨single_image_eq, _, _, q0, hfeed, rfl, ?_, hq0⟩
  show p.buffer_.front.capacity = 2984960
  rw [hfront, single_image_eq]

/-- Witness for C1: the freshly constructed parser and an example frame of
sequence 7 in the 152-byte layout. -/
theorem round_trip_one_frame_witness :
    (∀ j, j < 10 → (exampleFrame 1 7 j).FullSize kinectLayout 7 j) ∧
    single_image = 298496 ∧
    ∃ q pkt q0,
      feed kinectLayout (DepthPacketStreamParser.construct (fun _ => 0))
          (frameEvents true (exampleFrame 1 7)) = some (q, [pkt])
      ∧ pkt.sequence = 7 ∧ pkt.buffer_length = 2984960
      ∧ feed kinectLayout (DepthPacketStreamParser.construct (fun _ => 0))
          (frameEvents true (exampleFrame 1 7)).dropLast = some (q0, []) :=
  ⟨exampleFrame_fullSize 1 7 (by decide),
    round_trip_one_frame kinectLayout (DepthPacketStreamParser.construct (fun _ => 0)) 7
      (exampleFrame 1 7) (exampleFrame_fullSize 1 7 (by decide)) rfl rfl rfl rfl
      (fun h => by cases h)⟩

/-- C2, delivered frame content, fails on the code. The freshly constructed
parser (heap all zero) is fed frame 0 (payload bytes all 1) and then frame 1
(payload bytes all 2), the processor being ready. Both frames are processed;
the buffer handed over for frame 1 starts at address 2984960, and its first
byte is still the initial 0, not the first payload byte 2 of sub-packet
`(1, 0)`: after the swap the accumulator was bound to slot 0 of the buffer
that had just become back, so sub-packet 0 of frame 1 went there. -/
theorem second_frame_slot0_stale :
    (feed kinectLayout (DepthPacketStreamParser.construct (fun _ => 0))
        (frameEvents true (exampleFrame 1 0) ++ frameEvents true (exampleFrame 2 1))).map
      (fun r => (r.2, r.1.heap 2984960))
      = some ([{ sequence := 0, buffer := 0, buffer_length := 2984960 },
               { sequence := 1, buffer := 2984960, buffer_length := 2984960 }], 0)
    ∧ (exampleFrame 2 1 0).body = [List.replicate 200000 2] := by
  refine ⟨?_, rfl⟩
  obtain ⟨h1, hfeed1, -, hfr1⟩ := feed_frame kinectLayout
    (DepthPacketStreamParser.construct (fun _ => 0)) 0 (exampleFrame 1 0)
    (exampleFrame_fullSize 1 0 (by decide)) rfl rfl rfl (fun h => by cases h)
  obtain ⟨h2, hfeed2, -, hfr2⟩ := feed_frame kinectLayout
    { DepthPacketStreamParser.construct (fun _ => 0) with
      heap := h1
      buffer_ := (DepthPacketStreamParser.construct (fun _ => 0)).buffer_.swap
      started_ := true
      current_sequence_ := (0 + 1) % u32
      current_subsequence_ := 0
      work_buffer_ :=
        { (DepthPacketStreamParser.construct (fun _ => 0)).work_buffer_ with
          length := 0
          data := (DepthPacketStreamParser.construct (fun _ => 0)).buffer_.front.data } }
    1 (exampleFrame 2 1) (exampleFrame_fullSize 2 1 (by decide)) rfl rfl rfl (fun _ => rfl)
  simp only [construct_buffer, construct_work_buffer, construct_heap, swap_front, swap_back,
    front_val, back_val, single_image_eq, Bool.false_eq_true, if_false] at hfr1 hfr2 hfeed1 hfeed2
  have e1 : h1 2984960 = 0 := hfr1 2984960 (by omega) (by omega)
  have e2 : h2 2984960 = h1 2984960 := hfr2 2984960 (by omega) (by omega)
  rw [feed_append_some _ _ _ _ _ _ _ _ hfeed1 hfeed2, Option.map_some']
  simp only [e2, e1, List.singleton_append]

/-- C3, write target stays in the front buffer, fails on the code. After the
freshly constructed parser has been fed one frame with a ready processor, the
accumulator's write target is address 0, the start of the back buffer (the
region just handed to `process`), while slot 0 of the front buffer starts at
2984960; the next fragment (200000 bytes, all 2) is copied there, so the first
byte of the back buffer changes to 2. -/
theorem write_target_in_back_after_swap :
    (feed kinectLayout (DepthPacketStreamParser.construct (fun _ => 0))
        (frameEvents true (exampleFrame 1 0))).map
      (fun r => (r.2, r.1.work_buffer_.data, r.1.buffer_.back.data, r.1.buffer_.front.data,
        r.1.current_subsequence_))
      = some ([{ sequence := 0, buffer := 0, buffer_length := 2984960 }], 0, 0, 2984960, 0)
    ∧ (feed kinectLayout (DepthPacketStreamParser.construct (fun _ => 0))
        (frameEvents true (exampleFrame 1 0) ++ [(true, List.replicate 200000 2)])).map
      (fun r => (r.1.buffer_.back.data, r.1.buffer_.back.capacity, r.1.heap 0))
      = some (0, 2984960, 2) := by
  obtain ⟨h1, hfeed1, -, -⟩ := feed_frame kinectLayout
    (DepthPacketStreamParser.construct (fun _ => 0)) 0 (exampleFrame 1 0)
    (exampleFrame_fullSize 1 0 (by decide)) rfl rfl rfl (fun h => by cases h)
  have hlen : (List.replicate 200000 (2 : Byte)).length = 200000 := List.length_replicate _ _
  have hcont : IsContinuation kinectLayout (List.replicate 200000 (2 : Byte)) :=
    replicate_isContinuation 200000 2 (by decide)
  rcases hcont with hnil | ⟨hsz, hmag⟩
  · have := congrArg List.length hnil
    rw [hlen] at this
    cases this
  have hstep : ∀ q : DepthPacketStreamParser, q.work_buffer_.length = 0 →
      q.work_buffer_.capacity = single_image →
      onDataReceived kinectLayout q true (List.replicate 200000 (2 : Byte)) = some _ :=
    fun q h0 hc => onData_continue kinectLayout q true _ hsz hmag
      (by rw [h0, hc, hlen, single_image_eq]; decide)
  have hfeed2 := feed_snoc_some _ _ _ _ _ _ _ _ hfeed1 (hstep _ rfl rfl)
  have hbyte : memcpy h1 0 (List.replicate 200000 (2 : Byte)) 200000 0 = 2 := by
    rw [memcpy_inside _ _ _ _ _ (Nat.zero_le _) (by decide) (by rw [hlen]; decide)]
    exact List.getElem_replicate _ _
  constructor
  · rw [hfeed1, Option.map_some']
    simp only [construct_buffer, construct_work_buffer, swap_front, swap_back, front_val,
      back_val, Bool.false_eq_true, if_false]
  · rw [hfeed2, Option.map_some']
    simp only [construct_buffer, construct_work_buffer, swap_front, swap_back, front_val,
      back_val, Bool.false_eq_true, if_false, hlen, Nat.add_zero, hbyte]

/-- C4, capacity invariant. Every sequence of calls from construction with
fragments at least as long as a footer runs to the end and leaves the
accumulator with `length ≤ capacity = 298496`; and in the state reached, a
fragment whose payload would make `length + payload > capacity` is rejected
(drop path) with the heap unchanged: no byte is copied. -/
theorem capacity_invariant (L : FooterLayout) (heap : Nat → Byte)
    (evs : List (Bool × List Byte)) (hevs : ∀ e ∈ evs, L.size ≤ e.2.length) :
    ∃ p log, feed L (DepthPacketStreamParser.construct heap) evs = some (p, log)
      ∧ p.work_buffer_.capacity = 298496
      ∧ p.work_buffer_.length ≤ p.work_buffer_.capacity
      ∧ ∀ (r : Bool) (f : List Byte), L.size ≤ f.length →
          p.work_buffer_.length + payloadLength L f > p.work_buffer_.capacity →
          ∃ s, onDataReceived L p r f = some s ∧ s.path = Path.dropped
            ∧ s.processed = [] ∧ s.parser.heap = p.heap := by
  obtain ⟨p, log, hfeed, hinv⟩ := feed_inv L evs _ (inv_construct heap)
    (fun e he => Or.inr (hevs e he))
  refine ⟨p, log, hfeed, hinv.2.2.1, ?_, ?_⟩
  · rw [hinv.2.2.1]
    exact hinv.2.2.2.1
  · intro r f hlen hov
    exact ⟨_, step_overflow L p r f hlen hov, rfl, rfl, rfl⟩

/-- Witness for C4: the freshly constructed parser fed one 200000-byte
fragment. -/
theorem capacity_invariant_witness :
    ∃ p log, feed kinectLayout (DepthPacketStreamParser.construct (fun _ => 0))
        [(true, List.replicate 200000 1)] = some (p, log)
      ∧ p.work_buffer_.capacity = 298496
      ∧ p.work_buffer_.length ≤ p.work_buffer_.capacity
      ∧ ∀ (r : Bool) (f : List Byte), kinectLayout.size ≤ f.length →
          p.work_buffer_.length + payloadLength kinectLayout f > p.work_buffer_.capacity →
          ∃ s, onDataReceived kinectLayout p r f = some s ∧ s.path = Path.dropped
            ∧ s.processed = [] ∧ s.parser.heap = p.heap :=
  capacity_invariant kinectLayout (fun _ => 0) [(true, List.replicate 200000 1)]
    (fun e he => by
      rw [List.mem_singleton.mp he]
      show 152 ≤ (List.replicate 200000 (1 : Byte)).length
      rw [List.length_replicate]
      decide)

/-- C5, overflow safety. In every reachable state the accumulator is bound to
the start of one of the ten slots of one of the two buffers. A call changes
heap bytes only in `[data + length, data + length + payload)`, a range that
ends at or before `data + capacity`, the end of that slot; every byte of every
other slot of both buffers is unchanged; and when the payload does not fit
(`length + payload > capacity`) no byte changes at all. -/
theorem writes_stay_in_slot (L : FooterLayout) (p : DepthPacketStreamParser) (r : Bool)
    (f : List Byte) (hp : Reachable L p) (hf : f = [] ∨ L.size ≤ f.length) :
    ∃ s, onDataReceived L p r f = some s
      ∧ p.work_buffer_.capacity = 298496
      ∧ (∃ k, k < 10 ∧ (p.work_buffer_.data = p.buffer_.front.data + 298496 * k
            ∨ p.work_buffer_.data = p.buffer_.back.data + 298496 * k))
      ∧ (∀ a, (a < p.work_buffer_.data + p.work_buffer_.length
            ∨ p.work_buffer_.data + p.work_buffer_.length + payloadLength L f ≤ a) →
            s.parser.heap a = p.heap a)
      ∧ (s.parser.heap = p.heap
          ∨ p.work_buffer_.data + p.work_buffer_.length + payloadLength L f
              ≤ p.work_buffer_.data + p.work_buffer_.capacity)
      ∧ (∀ base k i, (base = p.buffer_.front.data ∨ base = p.buffer_.back.data) →
            k < 10 → i < 298496 → base + 298496 * k ≠ p.work_buffer_.data →
            s.parser.heap (base + 298496 * k + i) = p.heap (base + 298496 * k + i))
      ∧ (p.work_buffer_.length + payloadLength L f > p.work_buffer_.capacity →
            s.parser.heap = p.heap) := by
  have hinv := reachable_inv L p hp
  have hreg := inv_regions p hinv
  obtain ⟨-, -, hcap, hlen, hsub, -, -, hdata⟩ := hinv
  obtain ⟨s, hs⟩ := onData_defined L p r f hf
  have hheap := step_heap L p r f s hs
  have hslot : ∃ k, k < 10 ∧ (p.work_buffer_.data = p.buffer_.front.data + 298496 * k
      ∨ p.work_buffer_.data = p.buffer_.back.data + 298496 * k) := by
    rcases hdata with hd | ⟨h0, hd⟩
    · exact ⟨_, hsub, Or.inl hd⟩
    · exact ⟨0, by decide, Or.inr (by omega)⟩
  refine ⟨s, hs, hcap, hslot, ?_, ?_, ?_, ?_⟩
  · intro a ha
    rcases hheap with he | ⟨-, he⟩
    · rw [he]
    · rw [he]
      exact memcpy_outside _ _ _ _ _ ha
  · rcases hheap with he | ⟨hfit, -⟩
    · exact Or.inl he
    · exact Or.inr (by omega)
  · intro base k i hbase hk hi hne
    rcases hheap with he | ⟨hfit, he⟩
    · rw [he]
    · rw [he]
      apply memcpy_outside
      obtain ⟨m, hm, hmd⟩ := hslot
      omega
  · intro hov
    rcases hheap with he | ⟨hfit, -⟩
    · exact he
    · omega

/-- Witness for C5: the freshly constructed parser and a 200000-byte
fragment. -/
theorem writes_stay_in_slot_witness :
    ∃ s, onDataReceived kinectLayout (DepthPacketStreamParser.construct (fun _ => 0)) true
          (List.replicate 200000 1) = some s
      ∧ (∀ base k i, (base = 0 ∨ base = 2984960) → k < 10 → i < 298496 →
            base + 298496 * k ≠ 0 →
            s.parser.heap (base + 298496 * k + i) = 0) := by
  obtain ⟨s, hs, -, -, -, -, hother, -⟩ :=
    writes_stay_in_slot kinectLayout (DepthPacketStreamParser.construct (fun _ => 0)) true
      (List.replicate 200000 1) (reachable_construct _ _)
      (Or.inr (by
        show 152 ≤ (List.replicate 200000 (1 : Byte)).length
        rw [List.length_replicate]
        decide))
  refine ⟨s, hs, ?_⟩
  intro base k i hbase hk hi hne
  rw [construct_buffer, construct_work_buffer] at hother
  exact hother base k i hbase hk hi hne

/-- C6, loss resynchronization. A started parser with an empty accumulator
receives a complete full-size sub-packet whose footer `(M, j)` is not the
expected pair: its fragments without terminator are appended, the terminating
call takes the drop path without processing anything and leaves the parser
expecting `(M + 1, 0)` (modulo 2^32). A following full-size sub-packet with
footer `(M + 1, 0)` is then accepted, leaving the parser expecting
`(M + 1, 1)`. -/
theorem loss_resynchronization (L : FooterLayout) (p : DepthPacketStreamParser) (r r2 : Bool)
    (sp sp2 : SubPacket) (M j : Nat)
    (hst : p.started_ = true) (hcap : p.work_buffer_.capacity = single_image)
    (hlen : p.work_buffer_.length = 0) (hsp : sp.FullSize L M j)
    (hne : M ≠ p.current_sequence_ ∨ j ≠ p.current_subsequence_)
    (hsp2 : sp2.FullSize L ((M + 1) % u32) 0) :
    ∃ q0 s1 q1 s2,
      feed L p (sp.body.map (fun f => (r, f))) = some (q0, [])
      ∧ onDataReceived L q0 r sp.last = some s1
      ∧ s1.path = Path.dropped ∧ s1.processed = []
      ∧ s1.parser.current_sequence_ = (M + 1) % u32 ∧ s1.parser.current_subsequence_ = 0
      ∧ feed L s1.parser (sp2.body.map (fun f => (r2, f))) = some (q1, [])
      ∧ onDataReceived L q1 r2 sp2.last = some s2
      ∧ s2.path = Path.accepted ∧ s2.processed = []
      ∧ s2.parser.current_sequence_ = (M + 1) % u32 ∧ s2.parser.current_subsequence_ = 1 := by
  obtain ⟨hbody, hterm, hpay, hs, hq⟩ := hsp
  unfold SubPacket.payloadLength at hpay
  obtain ⟨h, hfeed⟩ := feed_body L p r sp hbody (by omega)
  have hstep := onData_mismatch L (beforeLast p h (sp.body.map List.length).sum) r sp.last
    hterm (by simp only [beforeLast]; omega) hst
    (by
      rw [hs, hq]
      exact hne)
  have hdrop : ∃ s1, onDataReceived L (beforeLast p h (sp.body.map List.length).sum) r sp.last
        = some s1
      ∧ s1.path = Path.dropped ∧ s1.processed = []
      ∧ s1.parser.current_sequence_ = (M + 1) % u32 ∧ s1.parser.current_subsequence_ = 0
      ∧ s1.parser.work_buffer_.length = 0
      ∧ s1.parser.work_buffer_.capacity = single_image :=
    ⟨_, hstep, rfl, rfl, by rw [hs], rfl, rfl, hcap⟩
  obtain ⟨s1, hs1, hpath1, hproc1, hseq1, hsub1, hlen1, hcap1⟩ := hdrop
  obtain ⟨q1, s2, hfeed2, hstep2, hpath2, hproc2, hseq2, hsub2⟩ :=
    accept_first_subpacket L s1.parser r2 sp2 ((M + 1) % u32) hsp2 hseq1 hsub1 hlen1 hcap1
  exact ⟨_, s1, q1, s2, hfeed, hs1, hpath1, hproc1, hseq1, hsub1, hfeed2, hstep2, hpath2, hproc2,
    hseq2, hsub2⟩

/-- Witness for C6: a parser expecting `(8, 0)` receives sub-packet `(12, 3)`
and then sub-packet `(13, 0)`. -/
theorem loss_resynchronization_witness :
    ∃ q0 s1 q1 s2,
      feed kinectLayout (exampleSynced 8 0)
          ((exampleSubPacket 1 12 3).body.map (fun f => (true, f))) = some (q0, [])
      ∧ onDataReceived kinectLayout q0 true (exampleSubPacket 1 12 3).last = some s1
      ∧ s1.path = Path.dropped ∧ s1.processed = []
      ∧ s1.parser.current_sequence_ = (12 + 1) % u32 ∧ s1.parser.current_subsequence_ = 0
      ∧ feed kinectLayout s1.parser
          ((exampleSubPacket 1 13 0).body.map (fun f => (true, f))) = some (q1, [])
      ∧ onDataReceived kinectLayout q1 true (exampleSubPacket 1 13 0).last = some s2
      ∧ s2.path = Path.accepted ∧ s2.processed = []
      ∧ s2.parser.current_sequence_ = (12 + 1) % u32 ∧ s2.parser.current_subsequence_ = 1 :=
  loss_resynchronization kinectLayout (exampleSynced 8 0) true true (exampleSubPacket 1 12 3)
    (exampleSubPacket 1 13 0) 12 3 rfl rfl rfl
    (exampleSubPacket_fullSize 1 12 3 (by decide) (by decide))
    (Or.inl (show (12 : Nat) ≠ 8 by decide))
    (exampleSubPacket_fullSize 1 13 0 (by decide) (by decide))

/-- C7, backpressure drop. A started parser expecting `(N, 9)` receives the
terminating fragment that completes sub-packet `(N, 9)` while the processor is
not ready: the sub-packet is accepted, nothing is processed, the buffers are
not swapped, and the parser expects `(N + 1, 0)` (modulo 2^32) with an empty
accumulator bound to slot 0 of the unchanged front buffer. A following
full-size sub-packet `(N + 1, 0)` is accepted. -/
theorem backpressure_drop (L : FooterLayout) (p : DepthPacketStreamParser) (r2 : Bool)
    (f : List Byte) (sp2 : SubPacket) (N : Nat)
    (hst : p.started_ = true) (hcap : p.work_buffer_.capacity = single_image)
    (hseq : p.current_sequence_ = N) (hsub : p.current_subsequence_ = 9)
    (hterm : IsTerminating L f)
    (hfull : p.work_buffer_.length + (f.length - L.size) = p.work_buffer_.capacity)
    (hfs : (footerOf L f).sequence = N) (hfq : (footerOf L f).subsequence = 9)
    (hsp2 : sp2.FullSize L ((N + 1) % u32) 0) :
    ∃ s q1 s2,
      onDataReceived L p false f = some s
      ∧ s.path = Path.accepted ∧ s.processed = []
      ∧ s.parser.buffer_ = p.buffer_
      ∧ s.parser.current_sequence_ = (N + 1) % u32 ∧ s.parser.current_subsequence_ = 0
      ∧ s.parser.work_buffer_.length = 0
      ∧ s.parser.work_buffer_.data = p.buffer_.front.data
      ∧ feed L s.parser (sp2.body.map (fun f => (r2, f))) = some (q1, [])
      ∧ onDataReceived L q1 r2 sp2.last = some s2
      ∧ s2.path = Path.accepted ∧ s2.processed = []
      ∧ s2.parser.current_sequence_ = (N + 1) % u32 ∧ s2.parser.current_subsequence_ = 1 := by
  have hstep := onData_accept_last_busy L p f hterm hfull hst (by rw [hfs, hseq])
    (by rw [hfq, hsub]) hsub
  have hacc : ∃ s, onDataReceived L p false f = some s
      ∧ s.path = Path.accepted ∧ s.processed = []
      ∧ s.parser.buffer_ = p.buffer_
      ∧ s.parser.current_sequence_ = (N + 1) % u32 ∧ s.parser.current_subsequence_ = 0
      ∧ s.parser.work_buffer_.length = 0
      ∧ s.parser.work_buffer_.data = p.buffer_.front.data
      ∧ s.parser.work_buffer_.capacity = single_image :=
    ⟨_, hstep, rfl, rfl, rfl, by rw [← hseq], rfl, rfl, rfl, hcap⟩
  obtain ⟨s, hs, hpath, hproc, hbuf, hseq1, hsub1, hlen1, hdata1, hcap1⟩ := hacc
  obtain ⟨q1, s2, hfeed2, hstep2, hpath2, hproc2, hseq2, hsub2⟩ :=
    accept_first_subpacket L s.parser r2 sp2 ((N + 1) % u32) hsp2 hseq1 hsub1 hlen1 hcap1
  exact ⟨s, q1, s2, hs, hpath, hproc, hbuf, hseq1, hsub1, hlen1, hdata1, hfeed2, hstep2, hpath2,
    hproc2, hseq2, hsub2⟩

/-- Witness for C7: a parser expecting `(7, 9)` receives the whole sub-packet
`(7, 9)` in one fragment while the processor is not ready, then sub-packet
`(8, 0)`. -/
theorem backpressure_drop_witness :
    ∃ s q1 s2,
      onDataReceived kinectLayout (exampleSynced 7 9) false (exampleFragment 298496 1 7 9)
        = some s
      ∧ s.path = Path.accepted ∧ s.processed = []
      ∧ s.parser.buffer_ = (exampleSynced 7 9).buffer_
      ∧ s.parser.current_sequence_ = (7 + 1) % u32 ∧ s.parser.current_subsequence_ = 0
      ∧ s.parser.work_buffer_.length = 0
      ∧ s.parser.work_buffer_.data = (exampleSynced 7 9).buffer_.front.data
      ∧ feed kinectLayout s.parser ((exampleSubPacket 2 8 0).body.map (fun f => (true, f)))
          = some (q1, [])
      ∧ onDataReceived kinectLayout q1 true (exampleSubPacket 2 8 0).last = some s2
      ∧ s2.path = Path.accepted ∧ s2.processed = []
      ∧ s2.parser.current_sequence_ = (7 + 1) % u32 ∧ s2.parser.current_subsequence_ = 1 :=
  backpressure_drop kinectLayout (exampleSynced 7 9) true (exampleFragment 298496 1 7 9)
    (exampleSubPacket 2 8 0) 7 rfl rfl rfl rfl
    (exampleFragment_terminating 298496 1 7 9 (by decide) (by decide))
    (exampleFragment_full _ 1 7 9 rfl rfl)
    (by rw [exampleFragment_footer 298496 1 7 9 (by decide) (by decide)])
    (by rw [exampleFragment_footer 298496 1 7 9 (by decide) (by decide)])
    (exampleSubPacket_fullSize 2 8 0 (by decide) (by decide))

/-- C8 as stated fails: the freshly constructed parser (not started, expected
sequence 4294967295) receives the complete full-size sub-packet `(5, 3)` in one
fragment. The sub-packet is dropped, nothing is processed, the parser stays
not started, but the expected sequence becomes 6. -/
theorem presync_drop_alters_expected_sequence :
    (onDataReceived kinectLayout (DepthPacketStreamParser.construct (fun _ => 0)) true
        (exampleFragment 298496 1 5 3)).map
      (fun s => (s.path, s.processed, s.parser.started_, s.parser.current_sequence_))
      = some (Path.dropped, [], false, 6)
    ∧ (DepthPacketStreamParser.construct (fun _ => 0)).current_sequence_ = 4294967295 := by
  have hfoot := exampleFragment_footer 298496 1 5 3 (by decide) (by decide)
  have hstep := presync_step kinectLayout (DepthPacketStreamParser.construct (fun _ => 0)) true
    (exampleFragment 298496 1 5 3) rfl
    (exampleFragment_terminating 298496 1 5 3 (by decide) (by decide))
    (exampleFragment_full _ 1 5 3 rfl rfl) (by rw [hfoot]; decide)
  obtain ⟨s, hs, hpath, hproc, hst, hseq⟩ := hstep
  constructor
  · rw [hs, Option.map_some', hpath, hproc, hst, hseq, hfoot]
    rfl
  · rfl

/-- C8, amended. A parser that has not started drops every complete full-size
sub-packet whose footer has a sub-sequence other than 0: the call takes the
drop path, processes nothing and leaves `started_` false; the expected sequence
becomes the footer's sequence plus one (modulo 2^32). -/
theorem presync_filtering (L : FooterLayout) (p : DepthPacketStreamParser) (r : Bool)
    (f : List Byte) (hst : p.started_ = false) (hterm : IsTerminating L f)
    (hfull : p.work_buffer_.length + (f.length - L.size) = p.work_buffer_.capacity)
    (hne : (footerOf L f).subsequence ≠ 0) :
    ∃ s, onDataReceived L p r f = some s
      ∧ s.path = Path.dropped ∧ s.processed = [] ∧ s.parser.started_ = false
      ∧ s.parser.current_sequence_ = ((footerOf L f).sequence + 1) % u32 :=
  presync_step L p r f hst hterm hfull hne

/-- Witness for the amended C8: the freshly constructed parser and the
sub-packet `(5, 3)`. -/
theorem presync_filtering_witness :
    ∃ s, onDataReceived kinectLayout (DepthPacketStreamParser.construct (fun _ => 0)) true
          (exampleFragment 298496 1 5 3) = some s
      ∧ s.path = Path.dropped ∧ s.processed = [] ∧ s.parser.started_ = false
      ∧ s.parser.current_sequence_
          = ((footerOf kinectLayout (exampleFragment 298496 1 5 3)).sequence + 1) % u32 :=
  presync_filtering kinectLayout (DepthPacketStreamParser.construct (fun _ => 0)) true
    (exampleFragment 298496 1 5 3) rfl
    (exampleFragment_terminating 298496 1 5 3 (by decide) (by decide))
    (exampleFragment_full _ 1 5 3 rfl rfl)
    (by rw [exampleFragment_footer 298496 1 5 3 (by decide) (by decide)]; decide)

/-- C9, resynchronization postcondition. A call on a fragment at least as
long as a footer takes the drop path exactly when the payload overflows the
accumulator, or a terminator is seen and the accumulated length is not the
capacity, or the parser has not started and the sub-sequence is not 0, or the
sequence (of a started parser) or the sub-sequence is not the expected one.
Whenever it takes the drop path, afterwards the expected sub-sequence is 0,
the expected sequence is the footer's sequence plus one modulo 2^32, the
accumulator is empty and bound to slot 0 of the front buffer, `started_` and
the buffer roles are unchanged, and nothing was processed. -/
theorem drop_path_postcondition (L : FooterLayout) (p : DepthPacketStreamParser) (r : Bool)
    (f : List Byte) (hlen : L.size ≤ f.length) :
    ∃ s, onDataReceived L p r f = some s
      ∧ (s.path = Path.dropped ↔
          (p.work_buffer_.length + payloadLength L f > p.work_buffer_.capacity
            ∨ (isTerminator (footerOf L f) = true
                ∧ p.work_buffer_.length + payloadLength L f ≤ p.work_buffer_.capacity
                ∧ (p.work_buffer_.length + payloadLength L f ≠ p.work_buffer_.capacity
                  ∨ (p.started_ = false ∧ (footerOf L f).subsequence ≠ 0)
                  ∨ (p.started_ = true ∧ (footerOf L f).sequence ≠ p.current_sequence_)
                  ∨ (footerOf L f).subsequence ≠ p.current_subsequence_))))
      ∧ (s.path = Path.dropped →
          s.parser.current_subsequence_ = 0
          ∧ s.parser.current_sequence_ = ((footerOf L f).sequence + 1) % u32
          ∧ s.parser.work_buffer_.length = 0
          ∧ s.parser.work_buffer_.data = s.parser.buffer_.front.data
          ∧ s.parser.started_ = p.started_
          ∧ s.parser.buffer_ = p.buffer_
          ∧ s.processed = []) := by
  obtain ⟨s, hs⟩ := onData_defined L p r f (Or.inr hlen)
  refine ⟨s, hs, ?_⟩
  have hpos := L.size_pos
  rcases onData_cases L p r f s hs with ⟨hnil, -⟩ | ⟨-, -, hc⟩
  · rw [hnil] at hlen
    simp at hlen
    omega
  rcases hc with ⟨hov, rfl⟩ | ⟨hfit, hterm, rfl⟩ | ⟨hfit, hterm, hna, rfl⟩ | ⟨hterm, ha, -, rfl⟩
    | ⟨hterm, ha, -, -, rfl⟩ | ⟨hterm, ha, -, -, rfl⟩
  · exact ⟨⟨fun _ => Or.inl hov, fun _ => rfl⟩, fun _ => ⟨rfl, rfl, rfl, rfl, rfl, rfl, rfl⟩⟩
  · refine ⟨⟨(fun h => nomatch h), ?_⟩, (fun h => nomatch h)⟩
    rintro (hov | ⟨ht, -⟩)
    · omega
    · rw [hterm] at ht
      cases ht
  · exact ⟨⟨fun _ => Or.inr ⟨hterm, hfit, (not_acceptCond_iff L p f).mp hna⟩, fun _ => rfl⟩,
      fun _ => ⟨rfl, rfl, rfl, rfl, rfl, rfl, rfl⟩⟩
  · refine ⟨⟨(fun h => nomatch h), ?_⟩, (fun h => nomatch h)⟩
    rintro (hov | ⟨-, -, hd⟩)
    · have := ha.1
      omega
    · exact absurd ha ((not_acceptCond_iff L p f).mpr hd)
  · refine ⟨⟨(fun h => nomatch h), ?_⟩, (fun h => nomatch h)⟩
    rintro (hov | ⟨-, -, hd⟩)
    · have := ha.1
      omega
    · exact absurd ha ((not_acceptCond_iff L p f).mpr hd)
  · refine ⟨⟨(fun h => nomatch h), ?_⟩, (fun h => nomatch h)⟩
    rintro (hov | ⟨-, -, hd⟩)
    · have := ha.1
      omega
    · exact absurd ha ((not_acceptCond_iff L p f).mpr hd)

/-- Witness for C9: the freshly constructed parser and the sub-packet
`(5, 3)` delivered in one fragment. -/
theorem drop_path_postcondition_witness :
    ∃ s, onDataReceived kinectLayout (DepthPacketStreamParser.construct (fun _ => 0)) true
          (exampleFragment 298496 1 5 3) = some s
      ∧ (s.path = Path.dropped →
          s.parser.current_subsequence_ = 0
          ∧ s.parser.current_sequence_
              = ((footerOf kinectLayout (exampleFragment 298496 1 5 3)).sequence + 1) % u32
          ∧ s.parser.work_buffer_.length = 0
          ∧ s.parser.work_buffer_.data = s.parser.buffer_.front.data
          ∧ s.parser.started_ = (DepthPacketStreamParser.construct (fun _ => 0)).started_
          ∧ s.parser.buffer_ = (DepthPacketStreamParser.construct (fun _ => 0)).buffer_
          ∧ s.processed = []) := by
  obtain ⟨s, hs, -, hpost⟩ :=
    drop_path_postcondition kinectLayout (DepthPacketStreamParser.construct (fun _ => 0)) true
      (exampleFragment 298496 1 5 3)
      (exampleFragment_terminating 298496 1 5 3 (by decide) (by decide)).1
  exact ⟨s, hs, hpost⟩

/-- C10, acceptance while synced. In a reachable state with `started_` true, a
terminating fragment whose payload fits the accumulator is accepted exactly
when the accumulated length after the append equals the capacity and the
footer carries the expected sequence and sub-sequence. On acceptance the
expected sub-sequence becomes `(old + 1) mod 10`, the accumulator is empty,
and the expected sequence is incremented (modulo 2^32) when the new expected
sub-sequence is 0 and unchanged otherwise. -/
theorem synced_acceptance (L : FooterLayout) (p : DepthPacketStreamParser) (r : Bool)
    (f : List Byte) (hp : Reachable L p) (hst : p.started_ = true) (hterm : IsTerminating L f)
    (hfit : p.work_buffer_.length + (f.length - L.size) ≤ p.work_buffer_.capacity) :
    ∃ s, onDataReceived L p r f = some s
      ∧ (s.path = Path.accepted ↔
          (p.work_buffer_.length + (f.length - L.size) = p.work_buffer_.capacity
            ∧ (footerOf L f).sequence = p.current_sequence_
            ∧ (footerOf L f).subsequence = p.current_subsequence_))
      ∧ (s.path = Path.accepted →
          s.parser.current_subsequence_ = (p.current_subsequence_ + 1) % 10
          ∧ s.parser.work_buffer_.length = 0
          ∧ (s.parser.current_subsequence_ = 0 →
              s.parser.current_sequence_ = (p.current_sequence_ + 1) % u32)
          ∧ (s.parser.current_subsequence_ ≠ 0 →
              s.parser.current_sequence_ = p.current_sequence_)) := by
  obtain ⟨hlen, hmag⟩ := hterm
  obtain ⟨s, hs⟩ := onData_defined L p r f (Or.inr hlen)
  refine ⟨s, hs, ?_⟩
  have hinv := reachable_inv L p hp
  have hsublt : p.current_subsequence_ < 10 := hinv.2.2.2.2.1
  have hpos := L.size_pos
  have hpl : payloadLength L f = f.length - L.size := by simp [payloadLength, hmag]
  have hnext : nextSub p = (p.current_subsequence_ + 1) % 10 := by
    unfold nextSub
    simp only [u32]
    omega
  have hacc_iff : AcceptCond L p f ↔
      (p.work_buffer_.length + (f.length - L.size) = p.work_buffer_.capacity
        ∧ (footerOf L f).sequence = p.current_sequence_
        ∧ (footerOf L f).subsequence = p.current_subsequence_) := by
    unfold AcceptCond
    rw [hpl]
    constructor
    · rintro ⟨h1, -, h3, h4⟩
      exact ⟨h1, h3 hst, h4⟩
    · rintro ⟨h1, h3, h4⟩
      exact ⟨h1, fun hf => absurd (hst.symm.trans hf) (by decide), fun _ => h3, h4⟩
  rcases onData_cases L p r f s hs with ⟨hnil, -⟩ | ⟨-, -, hc⟩
  · rw [hnil] at hlen
    simp at hlen
    omega
  rcases hc with ⟨hov, -⟩ | ⟨-, hterm, -⟩ | ⟨-, -, hna, rfl⟩ | ⟨-, ha, hn, rfl⟩
    | ⟨-, ha, hn, -, rfl⟩ | ⟨-, ha, hn, -, rfl⟩
  · omega
  · rw [hmag] at hterm
    cases hterm
  · exact ⟨⟨(fun h => nomatch h), fun h => absurd (hacc_iff.mpr h) hna⟩, (fun h => nomatch h)⟩
  · refine ⟨⟨fun _ => hacc_iff.mp ha, fun _ => rfl⟩, fun _ => ⟨hnext, rfl, ?_, ?_⟩⟩
    · intro h0
      exact absurd h0 hn
    · intro _
      exact (hacc_iff.mp ha).2.1
  · refine ⟨⟨fun _ => hacc_iff.mp ha, fun _ => rfl⟩, fun _ => ⟨?_, rfl, ?_, ?_⟩⟩
    · show 0 = (p.current_subsequence_ + 1) % 10
      rw [← hnext, hn]
    · intro _
      show ((footerOf L f).sequence + 1) % u32 = _
      rw [(hacc_iff.mp ha).2.1]
    · intro h0
      exact absurd rfl h0
  · refine ⟨⟨fun _ => hacc_iff.mp ha, fun _ => rfl⟩, fun _ => ⟨?_, rfl, ?_, ?_⟩⟩
    · show 0 = (p.current_subsequence_ + 1) % 10
      rw [← hnext, hn]
    · intro _
      show ((footerOf L f).sequence + 1) % u32 = _
      rw [(hacc_iff.mp ha).2.1]
    · intro h0
      exact absurd rfl h0

/-- Witness for C10: the parser that has accepted sub-packet `(0, 0)` receives
sub-packet `(0, 1)` in one fragment. -/
theorem synced_acceptance_witness :
    ∃ s, onDataReceived kinectLayout exampleStarted true (exampleFragment 298496 2 0 1) = some s
      ∧ (s.path = Path.accepted ↔
          (exampleStarted.work_buffer_.length
              + ((exampleFragment 298496 2 0 1).length - kinectLayout.size)
              = exampleStarted.work_buffer_.capacity
            ∧ (footerOf kinectLayout (exampleFragment 298496 2 0 1)).sequence
                = exampleStarted.current_sequence_
            ∧ (footerOf kinectLayout (exampleFragment 298496 2 0 1)).subsequence
                = exampleStarted.current_subsequence_)) := by
  obtain ⟨s, hs, hiff, -⟩ :=
    synced_acceptance kinectLayout exampleStarted true (exampleFragment 298496 2 0 1)
      exampleStarted_reachable rfl
      (exampleFragment_terminating 298496 2 0 1 (by decide) (by decide))
      (Nat.le_of_eq (exampleFragment_full exampleStarted 2 0 1 rfl rfl))
  exact ⟨s, hs, hiff⟩

/-- C11, acceptance while awaiting synchronisation. In a reachable state with
`started_` false, a terminating fragment that completes the accumulator to
exactly its capacity is accepted exactly when the footer's sub-sequence is 0,
whatever the footer's sequence and the expected sequence are. On acceptance
`started_` is true, the expected sequence is the footer's sequence and the
expected sub-sequence is 1. -/
theorem awaiting_sync_acceptance (L : FooterLayout) (p : DepthPacketStreamParser) (r : Bool)
    (f : List Byte) (hp : Reachable L p) (hst : p.started_ = false) (hterm : IsTerminating L f)
    (hfull : p.work_buffer_.length + (f.length - L.size) = p.work_buffer_.capacity) :
    ∃ s, onDataReceived L p r f = some s
      ∧ (s.path = Path.accepted ↔ (footerOf L f).subsequence = 0)
      ∧ (s.path = Path.accepted →
          s.parser.started_ = true
          ∧ s.parser.current_sequence_ = (footerOf L f).sequence
          ∧ s.parser.current_subsequence_ = 1) := by
  have hinv := reachable_inv L p hp
  have hsub0 : p.current_subsequence_ = 0 := hinv.2.2.2.2.2.2.1 hst
  by_cases h0 : (footerOf L f).subsequence = 0
  · have hstep := onData_accept_mid L p r f hterm hfull
      (fun h => absurd (hst.symm.trans h) (by decide)) (fun _ => h0)
      (by rw [h0, hsub0]) (by omega)
    refine ⟨_, hstep, ⟨fun _ => h0, fun _ => rfl⟩, fun _ => ⟨rfl, rfl, ?_⟩⟩
    show p.current_subsequence_ + 1 = 1
    omega
  · have hstep := onData_presync L p r f hterm hfull hst h0
    exact ⟨_, hstep, ⟨(fun h => nomatch h), fun h => absurd h h0⟩, (fun h => nomatch h)⟩

/-- Witness for C11: the freshly constructed parser receives sub-packet
`(5, 0)` in one fragment. -/
theorem awaiting_sync_acceptance_witness :
    ∃ s, onDataReceived kinectLayout (DepthPacketStreamParser.construct (fun _ => 0)) true
          (exampleFragment 298496 1 5 0) = some s
      ∧ (s.path = Path.accepted ↔
          (footerOf kinectLayout (exampleFragment 298496 1 5 0)).subsequence = 0)
      ∧ (s.path = Path.accepted →
          s.parser.started_ = true
          ∧ s.parser.current_sequence_
              = (footerOf kinectLayout (exampleFragment 298496 1 5 0)).sequence
          ∧ s.parser.current_subsequence_ = 1) :=
  awaiting_sync_acceptance kinectLayout (DepthPacketStreamParser.construct (fun _ => 0)) true
    (exampleFragment 298496 1 5 0) (reachable_construct _ _) rfl
    (exampleFragment_terminating 298496 1 5 0 (by decide) (by decide))
    (exampleFragment_full _ 1 5 0 rfl rfl)

/-- C12, continuation append. A fragment at least as long as a footer whose
tail fails the magic test and whose length `n` fits (`length + n ≤ capacity`)
is copied whole to offsets `[length, length + n)` of the accumulator's slot;
the fill grows by exactly `n`; no other heap byte and no other member changes
and nothing is processed. An empty fragment changes nothing at all. -/
theorem continuation_append (L : FooterLayout) (p : DepthPacketStreamParser) (r : Bool)
    (f : List Byte) (hlen : L.size ≤ f.length) (hmag : isTerminator (footerOf L f) = false)
    (hfit : p.work_buffer_.length + f.length ≤ p.work_buffer_.capacity) :
    (∃ s, onDataReceived L p r f = some s
      ∧ s.path = Path.continued ∧ s.processed = []
      ∧ (∀ i (h : i < f.length),
          s.parser.heap (p.work_buffer_.data + p.work_buffer_.length + i) = f[i])
      ∧ (∀ a, (a < p.work_buffer_.data + p.work_buffer_.length
            ∨ p.work_buffer_.data + p.work_buffer_.length + f.length ≤ a) →
          s.parser.heap a = p.heap a)
      ∧ s.parser.work_buffer_.length = p.work_buffer_.length + f.length
      ∧ s.parser.work_buffer_.data = p.work_buffer_.data
      ∧ s.parser.work_buffer_.capacity = p.work_buffer_.capacity
      ∧ s.parser.started_ = p.started_
      ∧ s.parser.current_sequence_ = p.current_sequence_
      ∧ s.parser.current_subsequence_ = p.current_subsequence_
      ∧ s.parser.buffer_ = p.buffer_)
    ∧ onDataReceived L p r []
        = some { parser := p, processed := [], path := Path.ignored } := by
  refine ⟨⟨_, onData_continue L p r f hlen hmag hfit, rfl, rfl, ?_, ?_, rfl, rfl, rfl, rfl, rfl,
    rfl, rfl⟩, onData_empty L p r⟩
  · intro i h
    show memcpy p.heap (p.work_buffer_.data + p.work_buffer_.length) f f.length
      (p.work_buffer_.data + p.work_buffer_.length + i) = f[i]
    have hi : p.work_buffer_.data + p.work_buffer_.length + i
        - (p.work_buffer_.data + p.work_buffer_.length) = i := by omega
    rw [memcpy_inside _ _ _ _ _ (by omega) (by omega) (by omega)]
    simp only [hi]
  · intro a ha
    exact memcpy_outside _ _ _ _ _ ha

/-- Witness for C12: the freshly constructed parser and a 200000-byte
fragment without terminator. -/
theorem continuation_append_witness :
    ∃ s, onDataReceived kinectLayout (DepthPacketStreamParser.construct (fun _ => 0)) true
          (List.replicate 200000 1) = some s
      ∧ s.path = Path.continued ∧ s.processed = []
      ∧ s.parser.work_buffer_.length
          = (DepthPacketStreamParser.construct (fun _ => 0)).work_buffer_.length
            + (List.replicate 200000 (1 : Byte)).length := by
  have hcont := replicate_isContinuation 200000 (1 : Byte) (by decide)
  have hl : (List.replicate 200000 (1 : Byte)).length = 200000 := List.length_replicate _ _
  rcases hcont with hnil | ⟨hsz, hmag⟩
  · have := congrArg List.length hnil
    rw [hl] at this
    cases this
  obtain ⟨⟨s, hs, hpath, hproc, -, -, hlen, -⟩, -⟩ :=
    continuation_append kinectLayout (DepthPacketStreamParser.construct (fun _ => 0)) true
      (List.replicate 200000 1) hsz hmag
      (by rw [hl, construct_work_buffer]; decide)
  exact ⟨s, hs, hpath, hproc, hlen⟩

/-- C15, synchronisation state invariant. Every stream of fragments (each empty
or at least as long as a footer) fed to the freshly constructed parser leads
to a state in which `started_` false implies that the expected sub-sequence is
0; and if `started_` is true in that state, it is still true after any further
stream of calls, drops included. -/
theorem started_invariant (L : FooterLayout) (heap : Nat → Byte)
    (evs evs2 : List (Bool × List Byte))
    (h1 : ∀ e ∈ evs, e.2 = [] ∨ L.size ≤ e.2.length)
    (h2 : ∀ e ∈ evs2, e.2 = [] ∨ L.size ≤ e.2.length) :
    ∃ p log q log2,
      feed L (DepthPacketStreamParser.construct heap) evs = some (p, log)
      ∧ feed L p evs2 = some (q, log2)
      ∧ (p.started_ = false → p.current_subsequence_ = 0)
      ∧ (p.started_ = true → q.started_ = true) := by
  obtain ⟨p, log, hfeed, hinv⟩ := feed_inv L evs _ (inv_construct heap) h1
  obtain ⟨q, log2, hfeed2, -⟩ := feed_inv L evs2 p hinv h2
  exact ⟨p, log, q, log2, hfeed, hfeed2, hinv.2.2.2.2.2.2.1,
    feed_started L evs2 p q log2 hfeed2⟩

/-- Witness for C15: the example sub-packet `(0, 0)`, then the incomplete
sub-packet `(9, 4)`, which is dropped. -/
theorem started_invariant_witness :
    ∃ p log q log2,
      feed kinectLayout (DepthPacketStreamParser.construct (fun _ => 0))
          [(true, exampleFragment 298496 1 0 0)] = some (p, log)
      ∧ feed kinectLayout p [(true, exampleFragment 1000 1 9 4)] = some (q, log2)
      ∧ (p.started_ = false → p.current_subsequence_ = 0)
      ∧ (p.started_ = true → q.started_ = true) :=
  started_invariant kinectLayout (fun _ => 0) [(true, exampleFragment 298496 1 0 0)]
    [(true, exampleFragment 1000 1 9 4)]
    (fun e he => by
      rw [List.mem_singleton.mp he]
      exact Or.inr (exampleFragment_terminating 298496 1 0 0 (by decide) (by decide)).1)
    (fun e he => by
      rw [List.mem_singleton.mp he]
      exact Or.inr (exampleFragment_terminating 1000 1 9 4 (by decide) (by decide)).1)

/-- C16, overflow on a fragment without terminator. A fragment at least as long
as a footer whose tail fails the magic test and whose length exceeds the
remaining capacity takes the drop path, and the expected sequence becomes the
value read at the footer's sequence field in the fragment's tail, plus one
(modulo 2^32); the expected sub-sequence becomes 0. -/
theorem overflow_rewrites_sequence (L : FooterLayout) (p : DepthPacketStreamParser) (r : Bool)
    (f : List Byte) (hlen : L.size ≤ f.length) (hmag : isTerminator (footerOf L f) = false)
    (hov : p.work_buffer_.length + f.length > p.work_buffer_.capacity) :
    ∃ s, onDataReceived L p r f = some s
      ∧ s.path = Path.dropped
      ∧ s.parser.current_sequence_ = ((footerOf L f).sequence + 1) % u32
      ∧ s.parser.current_subsequence_ = 0
      ∧ s.parser.started_ = p.started_ := by
  have hpl : payloadLength L f = f.length := by simp [payloadLength, hmag]
  exact ⟨_, step_overflow L p r f hlen (by rw [hpl]; exact hov), rfl, rfl, rfl, rfl⟩

/-- Witness for C16: a started parser expecting `(7, 3)` receives 300000
payload bytes, all 1, without terminator, and ends up expecting sequence
16843010. -/
theorem overflow_rewrites_sequence_witness :
    (exampleSynced 7 3).started_ = true ∧ (exampleSynced 7 3).current_sequence_ = 7
    ∧ (exampleSynced 7 3).current_subsequence_ = 3
    ∧ isTerminator (footerOf kinectLayout (List.replicate 300000 1)) = false
    ∧ ∃ s, onDataReceived kinectLayout (exampleSynced 7 3) true (List.replicate 300000 1)
          = some s
      ∧ s.path = Path.dropped
      ∧ s.parser.current_sequence_ = 16843010
      ∧ s.parser.current_subsequence_ = 0
      ∧ s.parser.started_ = true := by
  have hl : (List.replicate 300000 (1 : Byte)).length = 300000 := List.length_replicate _ _
  have hfoot := footerOf_replicate 300000 (1 : Byte) (by decide)
  have hmag : isTerminator (footerOf kinectLayout (List.replicate 300000 1)) = false := by
    rw [hfoot]
    decide
  have hseq : ((footerOf kinectLayout (List.replicate 300000 1)).sequence + 1) % u32
      = 16843010 := by
    rw [hfoot]
    decide
  obtain ⟨s, hs, hpath, hsq, hsub, hst⟩ :=
    overflow_rewrites_sequence kinectLayout (exampleSynced 7 3) true (List.replicate 300000 1)
      (by rw [hl]; decide) hmag
      (by
        rw [hl]
        show 0 + 300000 > single_image
        rw [single_image_eq]
        decide)
  exact ⟨rfl, rfl, rfl, hmag, s, hs, hpath, hsq.trans hseq, hsub, hst⟩

/-- C13 as stated fails: a started parser expecting `(7, 3)` receives the
corrupted sub-packet `(7, 3)` (only 1000 payload bytes before the terminator)
and then the well-formed full-size sub-packet `(7, 4)`. Both are dropped: after
the first drop the parser expects `(8, 0)`. -/
theorem rest_of_frame_dropped_after_failure :
    (feedSubPackets kinectLayout true (exampleSynced 7 3)
        [exampleShort 7 3, exampleSubPacket 1 7 4]).map Prod.snd
      = some [Path.dropped, Path.dropped] := by
  obtain ⟨hb1, hf1, ht1, hs1, -, hbad1⟩ := exampleShort_corrupted 7 3 (by decide) (by decide)
  obtain ⟨q1, hfeed1, hq1⟩ := feedSub_drop kinectLayout true (exampleSynced 7 3)
    (exampleShort 7 3) 7 3 7 (exampleSynced_expecting 7 3) hb1 hf1 ht1 hs1 (Or.inl hbad1)
  obtain ⟨hb2, ht2, hpay2, hs2, hq2⟩ :=
    exampleSubPacket_fullSize 1 7 4 (by decide) (by decide)
  obtain ⟨q2, hfeed2, -⟩ := feedSub_drop kinectLayout true q1 (exampleSubPacket 1 7 4)
    ((7 + 1) % u32) 0 7 hq1 hb2
    (fullSize_body_le kinectLayout _ 7 4 ⟨hb2, ht2, hpay2, hs2, hq2⟩) ht2 hs2
    (Or.inr (Or.inr (by rw [hq2]; decide)))
  have := feedSubPackets_append_some kinectLayout true [exampleShort 7 3]
    [exampleSubPacket 1 7 4] _ q1 q2 _ _ hfeed1 hfeed2
  rw [List.singleton_append] at this
  rw [this, Option.map_some']
  rfl

/-- C13, amended. A started parser receives a sub-packet `(N, j)` whose
terminator arrives with an accumulated length other than the capacity
(whatever its fragments without terminator were), then the well-formed
full-size sub-packets `(N, j+1), ..., (N, 9)` and the ten sub-packets of frame
`N + 1`. The terminating call of the corrupted sub-packet takes the drop path,
and so does that of every remaining sub-packet of frame `N`; after each of
these drops (the corrupted sub-packet followed by any `k` of the remaining
ones) the parser expects `(N + 1, 0)` with an empty accumulator. Every
sub-packet of frame `N + 1` is then accepted, and the parser expects
`(N + 2, 0)` (sequence numbers modulo 2^32). -/
theorem failure_drops_rest_of_frame (L : FooterLayout) (r : Bool)
    (p : DepthPacketStreamParser) (bad : SubPacket) (sp sp2 : Nat → SubPacket) (N j : Nat)
    (hst : p.started_ = true) (hcap : p.work_buffer_.capacity = single_image) (hj : j < 10)
    (hbody : ∀ f ∈ bad.body, IsContinuation L f)
    (hterm : IsTerminating L bad.last)
    (hN : (footerOf L bad.last).sequence = N)
    (_hsub : (footerOf L bad.last).subsequence = j)
    (hbad : ∀ q0 lg, feed L p (bad.body.map (fun f => (r, f))) = some (q0, lg) →
      q0.work_buffer_.length + (bad.last.length - L.size) ≠ q0.work_buffer_.capacity)
    (hsp : ∀ m, j < m → m < 10 → (sp m).FullSize L N m)
    (hsp2 : ∀ m, m < 10 → (sp2 m).FullSize L ((N + 1) % u32) m) :
    (∀ k, k ≤ 9 - j →
      ∃ q, feedSubPackets L r p (bad :: subPacketList sp (j + 1) k)
          = some (q, List.replicate (k + 1) Path.dropped)
        ∧ Expecting q ((N + 1) % u32) 0)
    ∧ ∃ q, feedSubPackets L r p
          (bad :: (subPacketList sp (j + 1) (9 - j) ++ subPacketList sp2 0 10))
        = some (q, Path.dropped
            :: (List.replicate (9 - j) Path.dropped ++ List.replicate 10 Path.accepted))
      ∧ Expecting q (((N + 1) % u32 + 1) % u32) 0 := by
  obtain ⟨q1, hfeed1, hq1⟩ := feedSub_drop_wrong_length L r p bad N hst hcap hbody hterm hN hbad
  constructor
  · intro k hk
    obtain ⟨q2, hfeed2, hq2⟩ := feedSubs_dropped L r sp N j hsp k (j + 1) q1 (by omega)
      (by omega) hq1
    refine ⟨q2, ?_, hq2⟩
    have := feedSubPackets_append_some L r [bad] _ p q1 q2 _ _ hfeed1 hfeed2
    rw [List.singleton_append] at this
    rw [List.replicate_succ]
    exact this
  · obtain ⟨q2, hfeed2, hq2⟩ := feedSubs_dropped L r sp N j hsp (9 - j) (j + 1) q1 (by omega)
      (by omega) hq1
    obtain ⟨q3, hfeed3, hq3⟩ := feedSubs_accepted L r sp2 ((N + 1) % u32) hsp2 9 0 q2 rfl hq2
    refine ⟨q3, ?_, hq3⟩
    have h23 := feedSubPackets_append_some L r _ _ q1 q2 q3 _ _ hfeed2 hfeed3
    have := feedSubPackets_append_some L r [bad] _ p q1 q3 _ _ hfeed1 h23
    rw [List.singleton_append] at this
    exact this

/-- Witness for the amended C13: a parser expecting `(7, 3)` receives the
oversized sub-packet `(7, 3)` (its first fragment overflows the accumulator,
its terminator arrives with 1000 accumulated bytes), the rest of frame 7 and
frame 8. -/
theorem failure_drops_rest_of_frame_witness :
    (exampleSynced 7 3).started_ = true
    ∧ (∀ k, k ≤ 9 - 3 →
      ∃ q, feedSubPackets kinectLayout true (exampleSynced 7 3)
          (exampleOversize 7 3 :: subPacketList (exampleFrame 1 7) (3 + 1) k)
          = some (q, List.replicate (k + 1) Path.dropped)
        ∧ Expecting q ((7 + 1) % u32) 0)
    ∧ ∃ q, feedSubPackets kinectLayout true (exampleSynced 7 3)
          (exampleOversize 7 3
            :: (subPacketList (exampleFrame 1 7) (3 + 1) (9 - 3)
              ++ subPacketList (exampleFrame 2 8) 0 10))
        = some (q, Path.dropped
            :: (List.replicate (9 - 3) Path.dropped ++ List.replicate 10 Path.accepted))
      ∧ Expecting q (((7 + 1) % u32 + 1) % u32) 0 :=
  ⟨rfl,
    failure_drops_rest_of_frame kinectLayout true (exampleSynced 7 3) (exampleOversize 7 3)
      (exampleFrame 1 7) (exampleFrame 2 8) 7 3 rfl rfl (by decide)
      (exampleOversize_corrupted 7 3 (by decide) (by decide) (exampleSynced 7 3) rfl rfl).1
      (exampleOversize_corrupted 7 3 (by decide) (by decide) (exampleSynced 7 3) rfl rfl).2.1
      (exampleOversize_corrupted 7 3 (by decide) (by decide) (exampleSynced 7 3) rfl rfl).2.2.1
      (exampleOversize_corrupted 7 3 (by decide) (by decide) (exampleSynced 7 3) rfl
        rfl).2.2.2.1
      (exampleOversize_corrupted 7 3 (by decide) (by decide) (exampleSynced 7 3) rfl
        rfl).2.2.2.2
      (fun m _ hm => exampleFrame_fullSize 1 7 (by decide) m hm)
      (fun m hm => exampleFrame_fullSize 2 8 (by decide) m hm)⟩

/-- C14, process is invoked only for fully accepted frames. Every stream of
fragments (each empty or at least as long as a footer) fed to the freshly
constructed parser has a trace of calls. In it every call hands at most one
packet to `process`. Whenever a call hands over a packet of sequence `N`, its
own fragment carries a terminator and was accepted, and the trace up to and
including this call ends with a stretch that starts at a terminating call,
contains exactly ten terminating calls, with footers `(N, 0), ..., (N, 9)` in
this order and all accepted, and contains no call that took the drop path. -/
theorem process_only_for_accepted_frames (L : FooterLayout) (heap : Nat → Byte)
    (evs : List (Bool × List Byte)) (hevs : ∀ e ∈ evs, e.2 = [] ∨ L.size ≤ e.2.length) :
    ∃ cs, calls L (DepthPacketStreamParser.construct heap) evs = some cs
      ∧ ∀ a c b, cs = a ++ c :: b →
          c.step.processed.length ≤ 1
          ∧ ∀ pkt ∈ c.step.processed,
              carriesTerminator L c.fragment = true ∧ c.step.path = Path.accepted
              ∧ ∃ pre suf, a ++ [c] = pre ++ suf ∧ Run L suf pkt.sequence 10 := by
  obtain ⟨cs, hcs, hgood⟩ := calls_runs L evs (DepthPacketStreamParser.construct heap) []
    (inv_construct heap) (fun hc => absurd rfl hc) hevs
  refine ⟨cs, hcs, ?_⟩
  intro a c b h
  have := hgood a c b h
  rw [List.nil_append] at this
  exact this

/-- Witness for C14: the freshly constructed parser fed the example frame of
sequence 7. -/
theorem process_only_for_accepted_frames_witness :
    ∃ cs, calls kinectLayout (DepthPacketStreamParser.construct (fun _ => 0))
          (frameEvents true (exampleFrame 1 7)) = some cs
      ∧ ∀ a c b, cs = a ++ c :: b →
          c.step.processed.length ≤ 1
          ∧ ∀ pkt ∈ c.step.processed,
              carriesTerminator kinectLayout c.fragment = true ∧ c.step.path = Path.accepted
              ∧ ∃ pre suf, a ++ [c] = pre ++ suf ∧ Run kinectLayout suf pkt.sequence 10 :=
  process_only_for_accepted_frames kinectLayout (fun _ => 0)
    (frameEvents true (exampleFrame 1 7))
    (frameEvents_sized kinectLayout true (exampleFrame 1 7) 7
      (exampleFrame_fullSize 1 7 (by decide)))

end Freenect2
